import Mathlib

/-!
Verification development for the `pycastic` refactoring engine
(`src/pycastic/*.py`, with the symbol table shared from
`src/pyfactor/symbol_table.py`).

The development shallowly embeds the LibCST concrete-syntax trees that the
tool manipulates, and translates the tool's transformers and planner
functions into Lean definitions over that embedding.  Conventions:

* A source file is represented by its parsed CST (`Module`); LibCST printing
  is lossless on the fragment we model, so tree equality stands for
  byte-content equality of the printed file.  A file that fails to parse is
  represented by `none : Option Module`.
* Identifier-position `Name` nodes that the transformers can touch are
  `String` fields of the tree.  Regions that LibCST represents as `Name` /
  `Attribute` nodes but that are syntactically constrained (the dotted
  module part of an import, the dotted target of a plain `import`) are kept
  as `List String` of their dotted components; a singleton list corresponds
  to a `cst.Name`, a longer list to a `cst.Attribute` chain.
* Python `set`s are represented as duplicate-free lists built with
  insert-if-absent; the code under verification never depends on set
  iteration order for the properties at issue.
* Machine-level details (file encodings, OS errors other than a missing
  file) are outside the model.
-/

namespace Pycastic

/-! ## Expressions (`libcst` expression nodes reachable in the claims)

`Arg` is a call argument; `keyword` is the optional keyword label
(`cst.Arg.keyword`, a `Name` node in LibCST).  We use custom list types
(`Exprs`, `Args`) inside the mutual block so that structural recursion and
induction stay simple. -/

mutual

inductive Expr where
  | ename (value : String)
  | eattr (base : Expr) (attrName : String)
  | eint (n : Int)
  | estr (s : String)
  | ecall (func : Expr) (args : Args)
deriving DecidableEq

inductive Exprs where
  | nil
  | cons (e : Expr) (rest : Exprs)
deriving DecidableEq

inductive Args where
  | nil
  | cons (keyword : Option String) (value : Expr) (rest : Args)
deriving DecidableEq

end


/-! ## Structural string helpers

The core `String` functions (`splitOn`, `intercalate`, `endsWith`,
`dropRight`) are compiled with well-founded recursion and do not reduce
inside the kernel; the embedding uses these structurally recursive
equivalents instead. -/

def splitOnChar (c : Char) : List Char → List (List Char)
  | [] => [[]]
  | x :: rest =>
      if x = c then [] :: splitOnChar c rest
      else match splitOnChar c rest with
        | [] => [[x]]
        | g :: gs => (x :: g) :: gs

/-- `String.splitOn` on a one-character separator. -/
def splitStr (c : Char) (s : String) : List String :=
  (splitOnChar c s.data).map String.mk

/-- `String.intercalate`. -/
def joinWith (sep : String) : List String → String
  | [] => ""
  | [x] => x
  | x :: xs => x ++ sep ++ joinWith sep xs

/-- `String.endsWith`. -/
def strEndsWith (s t : String) : Bool := List.isSuffixOf t.data s.data

/-- `String.dropRight`. -/
def strDropRight (s : String) (n : Nat) : String :=
  String.mk (s.data.take (s.data.length - n))

/-- Alias of a plain `import a.b.c as d` statement (`cst.ImportAlias` whose
`name` may be a dotted `Attribute` chain, stored as its components). -/
structure PlainAlias where
  parts : List String
  asname : Option String
deriving DecidableEq

/-- Alias of a `from m import n as a` statement; the imported name is always
a single `cst.Name` in parseable source. -/
structure FromAlias where
  nameVal : String
  asname : Option String
deriving DecidableEq

/-- The names of a `from`-import: either a star import or a list of aliases. -/
inductive FromNames where
  | star
  | named (xs : List FromAlias)
deriving DecidableEq

/-- Small statements (`cst.BaseSmallStatement`): members of a
`SimpleStatementLine` body.  `sAssign` keeps the list of assignment targets
(`cst.AssignTarget.target` expressions). -/
inductive SmallStmt where
  | sAssign (targets : Exprs) (value : Expr)
  | sAnnAssign (target : Expr) (ann : Expr) (value : Option Expr)
  | sImport (names : List PlainAlias)
  | sImportFrom (relDots : Nat) (module : List String) (names : FromNames)
  | sExpr (e : Expr)
  | sReturn (e : Option Expr)
  | sPass
deriving DecidableEq

mutual

/-- Statements of a module or indented block: a simple statement line
(`cst.SimpleStatementLine`), a function definition, or a class definition.
Parameters are the `cst.Param.name` identifiers. -/
inductive Stmt where
  | sline (body : List SmallStmt)
  | sfun (nm : String) (params : List String) (body : Stmts)
  | sclass (nm : String) (body : Stmts)
deriving DecidableEq

inductive Stmts where
  | nil
  | cons (s : Stmt) (rest : Stmts)
deriving DecidableEq

end

/-- A parsed source file (`cst.Module`). -/
structure Module where
  body : Stmts
deriving DecidableEq

namespace Stmts

/-- Append of statement sequences (used by `add_definition`). -/
def append : Stmts → Stmts → Stmts
  | .nil, t => t
  | .cons s r, t => .cons s (append r t)

/-- Length of a statement sequence. -/
def length : Stmts → Nat
  | .nil => 0
  | .cons _ r => r.length + 1

end Stmts

end Pycastic

/-! ## Target-string parsing (`src/pycastic/parsing.py`)

`parse_target` tries three anchored regexes in order:

* `MULTI_NAME_PATTERN = ^(.+\.py)::(\w+(?:,\w+)+)$`
* `NAME_PATTERN       = ^(.+\.py)::(\w+)$`
* `POSITION_PATTERN   = ^(.+\.py):(\d+):(\d+)$`

and raises `TargetParseError` when none matches.  The embedding models the
Python `re` semantics of these patterns on the ASCII fragment: `.` is any
character except a newline, `\w` is a letter, digit or underscore (the
Unicode extension of `\w`/`isalpha` is outside the model), and a final `$`
also matches just before one trailing newline at the end of the string. -/

namespace Parsing

/-- Python `\w` on the ASCII fragment. -/
def isWordChar (c : Char) : Bool := c.isAlphanum || c = '_'

/-- Python `\d`. -/
def isDigitChar (c : Char) : Bool := c.isDigit

/-- Python `.` without `DOTALL`: anything but a newline. -/
def isDotChar (c : Char) : Bool := c ≠ '\n'

/-- Recognizer of the group `(.+\.py)`: at least one non-newline character
followed by the literal `.py`. -/
def pathOk (l : List Char) : Bool :=
  4 ≤ l.length && List.isSuffixOf ['.', 'p', 'y'] l && l.all isDotChar

/-- Recognizer of `\w+`. -/
def identOk (l : List Char) : Bool := !l.isEmpty && l.all isWordChar

/-- Recognizer of `\d+`. -/
def digitsOk (l : List Char) : Bool := !l.isEmpty && l.all isDigitChar

/-- Split a character list on commas (`str.split(",")` on the match). -/
def splitComma : List Char → List (List Char)
  | [] => [[]]
  | c :: rest =>
      if c = ',' then [] :: splitComma rest
      else match splitComma rest with
        | [] => [[c]]
        | g :: gs => (c :: g) :: gs

/-- Recognizer of `\w+(?:,\w+)+`: two or more comma-separated words. -/
def multiIdentsOk (l : List Char) : Bool :=
  let gs := splitComma l
  2 ≤ gs.length && gs.all identOk

/-- Core of `NAME_PATTERN` without the anchors: some split of the input into
`(.+\.py)` `::` `\w+`. -/
def nameCoreOk (l : List Char) : Bool :=
  (List.range (l.length + 1)).any fun i =>
    pathOk (l.take i) && (l.drop i).take 2 = [':', ':'] && identOk ((l.drop i).drop 2)

/-- Core of `MULTI_NAME_PATTERN` without the anchors. -/
def multiCoreOk (l : List Char) : Bool :=
  (List.range (l.length + 1)).any fun i =>
    pathOk (l.take i) && (l.drop i).take 2 = [':', ':'] && multiIdentsOk ((l.drop i).drop 2)

/-- Core of `POSITION_PATTERN` without the anchors. -/
def posCoreOk (l : List Char) : Bool :=
  (List.range (l.length + 1)).any fun i =>
    pathOk (l.take i) &&
      (match l.drop i with
        | c :: rest =>
            c = ':' &&
            ((List.range (rest.length + 1)).any fun j =>
              digitsOk (rest.take j) &&
                (match rest.drop j with
                  | c₂ :: ds => c₂ = ':' && digitsOk ds
                  | _ => false))
        | _ => false)

/-- `re.match` of an `^…$`-anchored pattern: the core matches the whole
string, or the whole string minus one trailing newline. -/
def matchDollar (core : List Char → Bool) (l : List Char) : Bool :=
  core l ||
    (match l.getLast? with
      | some c => c = '\n' && core l.dropLast
      | none => false)

/-- Which of the three target shapes matched (`SymbolsByName`,
`SymbolByName`, `SymbolByPosition`).  The group payloads are not needed by
any claim, so only the shape is recorded. -/
inductive TargetKind where
  | multi
  | single
  | position
deriving DecidableEq

/-- `parse_target`: try the three patterns in order; `none` is the
`TargetParseError` case. -/
def parse_target (s : String) : Option TargetKind :=
  if matchDollar multiCoreOk s.data then some .multi
  else if matchDollar nameCoreOk s.data then some .single
  else if matchDollar posCoreOk s.data then some .position
  else none

/-! ### The grammar, as the claim words it

The claim's grammar: a path ending in the `.py` extension, followed by `::`
and one or more comma-separated identifiers each beginning with a letter or
underscore followed by letters, digits or underscores — or a path followed
by `:line:column` with integer line and column.  (`path := any string
ending in the source extension`.) -/

/-- Identifier of the claim's grammar: letter or underscore first. -/
def claimIdentOk (l : List Char) : Bool :=
  match l with
  | [] => false
  | c :: rest => (c.isAlpha || c = '_') && rest.all isWordChar

/-- Path of the claim's grammar: any string ending in `.py`. -/
def claimPathOk (l : List Char) : Bool := List.isSuffixOf ['.', 'p', 'y'] l

/-- The claim's target grammar, as a recognizer (no trailing-newline
tolerance; identifiers must not start with a digit). -/
def claimTargetOk (l : List Char) : Bool :=
  ((List.range (l.length + 1)).any fun i =>
    claimPathOk (l.take i) && (l.drop i).take 2 = [':', ':'] &&
      (let gs := splitComma ((l.drop i).drop 2)
       1 ≤ gs.length && gs.all claimIdentOk)) ||
  ((List.range (l.length + 1)).any fun i =>
    claimPathOk (l.take i) &&
      (match l.drop i with
        | ':' :: rest =>
            (List.range (rest.length + 1)).any fun j =>
              digitsOk (rest.take j) &&
                (match rest.drop j with
                  | ':' :: ds => digitsOk ds
                  | _ => false)
        | _ => false))

/-! ### The grammar actually recognized (amended)

Propositional form of what the code accepts: the path part is a nonempty
newline-free string followed by `.py`; the identifiers are nonempty strings
of word characters (they may begin with a digit); one trailing newline is
tolerated by the `$` anchors. -/

/-- Path of the amended grammar. -/
def SpecPath (l : List Char) : Prop :=
  ∃ q, l = q ++ ['.', 'p', 'y'] ∧ q ≠ [] ∧ ∀ c ∈ q, c ≠ '\n'

/-- Identifier of the amended grammar (`\w+`). -/
def SpecIdent (l : List Char) : Prop := l ≠ [] ∧ ∀ c ∈ l, isWordChar c

/-- Digit run of the amended grammar (`\d+`). -/
def SpecDigits (l : List Char) : Prop := l ≠ [] ∧ ∀ c ∈ l, isDigitChar c

/-- Comma-join of identifier groups (inverse of `splitComma`). -/
def joinComma : List (List Char) → List Char
  | [] => []
  | [g] => g
  | g :: gs => g ++ ',' :: joinComma gs

/-- Amended target grammar: `path::ident(,ident)*` or `path:line:column`. -/
def SpecTarget (l : List Char) : Prop :=
  (∃ p gs, SpecPath p ∧ gs ≠ [] ∧ (∀ g ∈ gs, SpecIdent g) ∧
      l = p ++ ':' :: ':' :: joinComma gs) ∨
  (∃ p d₁ d₂, SpecPath p ∧ SpecDigits d₁ ∧ SpecDigits d₂ ∧
      l = p ++ ':' :: (d₁ ++ ':' :: d₂))

/-- Amended target grammar with the `$` trailing-newline tolerance. -/
def SpecTargetNL (l : List Char) : Prop :=
  SpecTarget l ∨ ∃ l', l = l' ++ ['\n'] ∧ SpecTarget l'

end Parsing


namespace Pycastic

/-! ## `RenameTransformer` (`src/pycastic/refactor.py`, `rename_in_source`)

`leave_Name` renames every `Name` node equal to `old` **except** those inside
the dotted module part of an import (`_in_import_module`) and those inside an
`ImportAlias.name` (`_in_import_alias_name`); in the embedding those guarded
regions are the `module`/`parts` components of the import statements, which
the functions below leave untouched.  `leave_ClassDef` / `leave_FunctionDef` /
`leave_Arg` re-check the already-updated `Name`, so they only fire (adding a
second count) when `old = new`. -/

mutual

def renameExpr (old new : String) : Expr → Expr × Nat
  | .ename v => if v = old then (.ename new, 1) else (.ename v, 0)
  | .eattr b f =>
      let p := renameExpr old new b
      if f = old then (.eattr p.1 new, p.2 + 1) else (.eattr p.1 f, p.2)
  | .eint n => (.eint n, 0)
  | .estr s => (.estr s, 0)
  | .ecall fn args =>
      let p := renameExpr old new fn
      let q := renameArgs old new args
      (.ecall p.1 q.1, p.2 + q.2)

def renameExprs (old new : String) : Exprs → Exprs × Nat
  | .nil => (.nil, 0)
  | .cons e r =>
      let p := renameExpr old new e
      let q := renameExprs old new r
      (.cons p.1 q.1, p.2 + q.2)

def renameArgs (old new : String) : Args → Args × Nat
  | .nil => (.nil, 0)
  | .cons kw v r =>
      let p := renameExpr old new v
      let q := renameArgs old new r
      match kw with
      | some k =>
          if k = old then
            (.cons (some new) p.1 q.1,
              p.2 + q.2 + 1 + (if new = old then 1 else 0))
          else (.cons (some k) p.1 q.1, p.2 + q.2)
      | none => (.cons none p.1 q.1, p.2 + q.2)

end

/-- Rename of an optional expression (annotated-assignment values etc.). -/
def renameOptExpr (old new : String) : Option Expr → Option Expr × Nat
  | none => (none, 0)
  | some e =>
      let p := renameExpr old new e
      (some p.1, p.2)

/-- `leave_Name` on the `as` name of a from-import alias (the imported name
itself is guarded by `_in_import_alias_name`). -/
def renameFromAlias (old new : String) (a : FromAlias) : FromAlias × Nat :=
  match a.asname with
  | some x =>
      if x = old then ({ a with asname := some new }, 1) else (a, 0)
  | none => (a, 0)

def renameFromAliases (old new : String) : List FromAlias → List FromAlias × Nat
  | [] => ([], 0)
  | a :: r =>
      let p := renameFromAlias old new a
      let q := renameFromAliases old new r
      (p.1 :: q.1, p.2 + q.2)

/-- `leave_Name` on the `as` name of a plain-import alias; the dotted target
is guarded by `_in_import_alias_name`. -/
def renamePlainAlias (old new : String) (a : PlainAlias) : PlainAlias × Nat :=
  match a.asname with
  | some x =>
      if x = old then ({ a with asname := some new }, 1) else (a, 0)
  | none => (a, 0)

def renamePlainAliases (old new : String) : List PlainAlias → List PlainAlias × Nat
  | [] => ([], 0)
  | a :: r =>
      let p := renamePlainAlias old new a
      let q := renamePlainAliases old new r
      (p.1 :: q.1, p.2 + q.2)

def renameSmallStmt (old new : String) : SmallStmt → SmallStmt × Nat
  | .sAssign ts v =>
      let p := renameExprs old new ts
      let q := renameExpr old new v
      (.sAssign p.1 q.1, p.2 + q.2)
  | .sAnnAssign t ann v =>
      let p := renameExpr old new t
      let q := renameExpr old new ann
      let r := renameOptExpr old new v
      (.sAnnAssign p.1 q.1 r.1, p.2 + q.2 + r.2)
  | .sImport names =>
      let p := renamePlainAliases old new names
      (.sImport p.1, p.2)
  | .sImportFrom d m names =>
      match names with
      | .star => (.sImportFrom d m .star, 0)
      | .named xs =>
          let p := renameFromAliases old new xs
          (.sImportFrom d m (.named p.1), p.2)
  | .sExpr e =>
      let p := renameExpr old new e
      (.sExpr p.1, p.2)
  | .sReturn e =>
      let p := renameOptExpr old new e
      (.sReturn p.1, p.2)
  | .sPass => (.sPass, 0)

def renameSmallStmts (old new : String) : List SmallStmt → List SmallStmt × Nat
  | [] => ([], 0)
  | s :: r =>
      let p := renameSmallStmt old new s
      let q := renameSmallStmts old new r
      (p.1 :: q.1, p.2 + q.2)

/-- `leave_Name` on `cst.Param.name` identifiers. -/
def renameParams (old new : String) : List String → List String × Nat
  | [] => ([], 0)
  | x :: r =>
      let q := renameParams old new r
      if x = old then (new :: q.1, q.2 + 1) else (x :: q.1, q.2)

mutual

def renameStmt (old new : String) : Stmt → Stmt × Nat
  | .sline body =>
      let p := renameSmallStmts old new body
      (.sline p.1, p.2)
  | .sfun nm ps body =>
      let p := renameParams old new ps
      let q := renameStmts old new body
      if nm = old then
        (.sfun new p.1 q.1, p.2 + q.2 + 1 + (if new = old then 1 else 0))
      else (.sfun nm p.1 q.1, p.2 + q.2)
  | .sclass nm body =>
      let q := renameStmts old new body
      if nm = old then
        (.sclass new q.1, q.2 + 1 + (if new = old then 1 else 0))
      else (.sclass nm q.1, q.2)

def renameStmts (old new : String) : Stmts → Stmts × Nat
  | .nil => (.nil, 0)
  | .cons s r =>
      let p := renameStmt old new s
      let q := renameStmts old new r
      (.cons p.1 q.1, p.2 + q.2)

end

/-- `rename_in_source` on a parsed module (the `ParserSyntaxError` fallback
is handled by the callers, which skip unparseable files). -/
def rename_in_source (m : Module) (old new : String) : Module × Nat :=
  let p := renameStmts old new m.body
  (⟨p.1⟩, p.2)

/-! ## `ImportRenameTransformer` (`update_imports_in_source`) -/

/-- `_get_dotted_name_str`: a dotted `Name`/`Attribute` chain as a string. -/
def dottedStr (parts : List String) : String := joinWith "." parts

/-- `_make_dotted_name`: split a dotted string into components.  (The
`ValueError` on a dots-only string is unreachable here: the planner only
passes real module names.) -/
def makeDottedName (s : String) : List String :=
  (splitStr '.' s).filter (fun p => p ≠ "")

def updateFromAliases (oldName newName : String) :
    List FromAlias → List FromAlias × Nat
  | [] => ([], 0)
  | a :: r =>
      let q := updateFromAliases oldName newName r
      if a.nameVal = oldName then
        ({ a with nameVal := newName } :: q.1, q.2 + 1)
      else (a :: q.1, q.2)

def updatePlainAliases (oldModule newModule : String) :
    List PlainAlias → List PlainAlias × Nat
  | [] => ([], 0)
  | a :: r =>
      let q := updatePlainAliases oldModule newModule r
      if dottedStr a.parts = oldModule then
        ({ a with parts := makeDottedName newModule } :: q.1, q.2 + 1)
      else (a :: q.1, q.2)

/-- `leave_ImportFrom` / `leave_Import`.  `om`/`nm` are `old_module` /
`new_module`, `on'`/`nn'` are `old_name`/`new_name`; `none` models a `None`
argument (Python truthiness — the planner never passes empty strings). -/
def updateImportsSmall (om nm on' nn' : Option String) :
    SmallStmt → SmallStmt × Nat
  | .sImportFrom d mod names =>
      let modP : List String × Nat :=
        match om, nm with
        | some o, some n =>
            if mod ≠ [] ∧ dottedStr mod = o then (makeDottedName n, 1)
            else (mod, 0)
        | _, _ => (mod, 0)
      let namesP : FromNames × Nat :=
        match on', nn', names with
        | some o, some n, .named xs =>
            let q := updateFromAliases o n xs
            (.named q.1, q.2)
        | _, _, ns => (ns, 0)
      (.sImportFrom d modP.1 namesP.1, modP.2 + namesP.2)
  | .sImport aliases =>
      match om, nm with
      | some o, some n =>
          let q := updatePlainAliases o n aliases
          (.sImport q.1, q.2)
      | _, _ => (.sImport aliases, 0)
  | s => (s, 0)

def updateImportsSmalls (om nm on' nn' : Option String) :
    List SmallStmt → List SmallStmt × Nat
  | [] => ([], 0)
  | s :: r =>
      let p := updateImportsSmall om nm on' nn' s
      let q := updateImportsSmalls om nm on' nn' r
      (p.1 :: q.1, p.2 + q.2)

mutual

def updateImportsStmt (om nm on' nn' : Option String) : Stmt → Stmt × Nat
  | .sline body =>
      let p := updateImportsSmalls om nm on' nn' body
      (.sline p.1, p.2)
  | .sfun f ps body =>
      let q := updateImportsStmts om nm on' nn' body
      (.sfun f ps q.1, q.2)
  | .sclass c body =>
      let q := updateImportsStmts om nm on' nn' body
      (.sclass c q.1, q.2)

def updateImportsStmts (om nm on' nn' : Option String) : Stmts → Stmts × Nat
  | .nil => (.nil, 0)
  | .cons s r =>
      let p := updateImportsStmt om nm on' nn' s
      let q := updateImportsStmts om nm on' nn' r
      (.cons p.1 q.1, p.2 + q.2)

end

/-- `update_imports_in_source` on a parsed module. -/
def update_imports_in_source (m : Module) (om nm on' nn' : Option String) :
    Module × Nat :=
  let p := updateImportsStmts om nm on' nn' m.body
  (⟨p.1⟩, p.2)

/-! ## `AttributeRenameTransformer` (`rename_attribute_in_source`)

`leave_Attribute` fires on every `Attribute` node, including the dotted
module part of a `from`-import and the dotted target of a plain `import`:
there, only the second component sits in an `Attribute` whose base is a
plain `Name`. -/

mutual

def renameAttrExpr (mod old new : String) : Expr → Expr × Nat
  | .ename v => (.ename v, 0)
  | .eattr b f =>
      let p := renameAttrExpr mod old new b
      if f = old then
        match p.1 with
        | .ename v =>
            if v = mod then (.eattr p.1 new, p.2 + 1) else (.eattr p.1 f, p.2)
        | _ => (.eattr p.1 f, p.2)
      else (.eattr p.1 f, p.2)
  | .eint n => (.eint n, 0)
  | .estr s => (.estr s, 0)
  | .ecall fn args =>
      let p := renameAttrExpr mod old new fn
      let q := renameAttrArgs mod old new args
      (.ecall p.1 q.1, p.2 + q.2)

def renameAttrExprs (mod old new : String) : Exprs → Exprs × Nat
  | .nil => (.nil, 0)
  | .cons e r =>
      let p := renameAttrExpr mod old new e
      let q := renameAttrExprs mod old new r
      (.cons p.1 q.1, p.2 + q.2)

def renameAttrArgs (mod old new : String) : Args → Args × Nat
  | .nil => (.nil, 0)
  | .cons kw v r =>
      let p := renameAttrExpr mod old new v
      let q := renameAttrArgs mod old new r
      (.cons kw p.1 q.1, p.2 + q.2)

end

/-- The dotted-components image of `leave_Attribute`: in a chain
`p₀.p₁.p₂…`, only `p₁` sits in an `Attribute` whose base is a `Name`. -/
def renameAttrParts (mod old new : String) : List String → List String × Nat
  | p₀ :: p₁ :: rest =>
      if p₁ = old ∧ p₀ = mod then (p₀ :: new :: rest, 1)
      else (p₀ :: p₁ :: rest, 0)
  | l => (l, 0)

def renameAttrOptExpr (mod old new : String) : Option Expr → Option Expr × Nat
  | none => (none, 0)
  | some e =>
      let p := renameAttrExpr mod old new e
      (some p.1, p.2)

def renameAttrPlainAliases (mod old new : String) :
    List PlainAlias → List PlainAlias × Nat
  | [] => ([], 0)
  | a :: r =>
      let p := renameAttrParts mod old new a.parts
      let q := renameAttrPlainAliases mod old new r
      ({ a with parts := p.1 } :: q.1, p.2 + q.2)

def renameAttrSmall (mod old new : String) : SmallStmt → SmallStmt × Nat
  | .sAssign ts v =>
      let p := renameAttrExprs mod old new ts
      let q := renameAttrExpr mod old new v
      (.sAssign p.1 q.1, p.2 + q.2)
  | .sAnnAssign t ann v =>
      let p := renameAttrExpr mod old new t
      let q := renameAttrExpr mod old new ann
      let r := renameAttrOptExpr mod old new v
      (.sAnnAssign p.1 q.1 r.1, p.2 + q.2 + r.2)
  | .sImport aliases =>
      let p := renameAttrPlainAliases mod old new aliases
      (.sImport p.1, p.2)
  | .sImportFrom d m names =>
      let p := renameAttrParts mod old new m
      (.sImportFrom d p.1 names, p.2)
  | .sExpr e =>
      let p := renameAttrExpr mod old new e
      (.sExpr p.1, p.2)
  | .sReturn e =>
      let p := renameAttrOptExpr mod old new e
      (.sReturn p.1, p.2)
  | .sPass => (.sPass, 0)

def renameAttrSmalls (mod old new : String) : List SmallStmt → List SmallStmt × Nat
  | [] => ([], 0)
  | s :: r =>
      let p := renameAttrSmall mod old new s
      let q := renameAttrSmalls mod old new r
      (p.1 :: q.1, p.2 + q.2)

mutual

def renameAttrStmt (mod old new : String) : Stmt → Stmt × Nat
  | .sline body =>
      let p := renameAttrSmalls mod old new body
      (.sline p.1, p.2)
  | .sfun f ps body =>
      let q := renameAttrStmts mod old new body
      (.sfun f ps q.1, q.2)
  | .sclass c body =>
      let q := renameAttrStmts mod old new body
      (.sclass c q.1, q.2)

def renameAttrStmts (mod old new : String) : Stmts → Stmts × Nat
  | .nil => (.nil, 0)
  | .cons s r =>
      let p := renameAttrStmt mod old new s
      let q := renameAttrStmts mod old new r
      (.cons p.1 q.1, p.2 + q.2)

end

/-- `rename_attribute_in_source` on a parsed module. -/
def rename_attribute_in_source (m : Module) (mod old new : String) :
    Module × Nat :=
  let p := renameAttrStmts mod old new m.body
  (⟨p.1⟩, p.2)

end Pycastic

namespace Pycastic

/-! ## `UsedNamesCollector` (`remove_unused_imports`)

Collects the value of every `Name` node outside import statements.  Import
statements contribute nothing (the `_in_import` flag). -/

mutual

def usedExpr : Expr → List String
  | .ename v => [v]
  | .eattr b f => usedExpr b ++ [f]
  | .eint _ => []
  | .estr _ => []
  | .ecall fn args => usedExpr fn ++ usedArgs args

def usedExprs : Exprs → List String
  | .nil => []
  | .cons e r => usedExpr e ++ usedExprs r

def usedArgs : Args → List String
  | .nil => []
  | .cons kw v r => kw.toList ++ usedExpr v ++ usedArgs r

end

def usedSmall : SmallStmt → List String
  | .sAssign ts v => usedExprs ts ++ usedExpr v
  | .sAnnAssign t ann v => usedExpr t ++ usedExpr ann ++ (v.map usedExpr).getD []
  | .sImport _ => []
  | .sImportFrom _ _ _ => []
  | .sExpr e => usedExpr e
  | .sReturn e => (e.map usedExpr).getD []
  | .sPass => []

mutual

def usedStmt : Stmt → List String
  | .sline body => body.flatMap usedSmall
  | .sfun nm ps body => nm :: ps ++ usedStmts body
  | .sclass nm body => nm :: usedStmts body

def usedStmts : Stmts → List String
  | .nil => []
  | .cons s r => usedStmt s ++ usedStmts r

end

/-- All names used outside imports, as a set. -/
def usedNames (m : Module) : List String := usedStmts m.body

/-! ## `UnusedImportRemover` and `remove_unused_imports` -/

/-- Local binding of a from-import alias: the alias if present, else
the imported name. -/
def fromLocalName (a : FromAlias) : String := a.asname.getD a.nameVal

/-- Local binding of a plain-import alias: the alias if present, else the
**first** dotted component of the target (`name.split(".")[0]`). -/
def plainLocalName (a : PlainAlias) : String :=
  a.asname.getD ((splitStr '.' (dottedStr a.parts)).headD "")

/-- `leave_ImportFrom`/`leave_Import` of `UnusedImportRemover` on one small
statement: `none` models `RemovalSentinel.REMOVE`; the second component is
the list of removed local names, in order. -/
def removeUnusedSmall (used : List String) :
    SmallStmt → Option SmallStmt × List String
  | .sImportFrom d mod .star => (some (.sImportFrom d mod .star), [])
  | .sImportFrom d mod (.named xs) =>
      let kept := xs.filter (fun a => fromLocalName a ∈ used)
      let removed := (xs.filter (fun a => fromLocalName a ∉ used)).map fromLocalName
      if kept.isEmpty then (none, removed)
      else (some (.sImportFrom d mod (.named kept)), removed)
  | .sImport xs =>
      let kept := xs.filter (fun a => plainLocalName a ∈ used)
      let removed := (xs.filter (fun a => plainLocalName a ∉ used)).map plainLocalName
      if kept.isEmpty then (none, removed)
      else (some (.sImport kept), removed)
  | s => (some s, [])

def removeUnusedSmalls (used : List String) :
    List SmallStmt → List SmallStmt × List String
  | [] => ([], [])
  | s :: r =>
      let p := removeUnusedSmall used s
      let q := removeUnusedSmalls used r
      ((p.1.toList) ++ q.1, p.2 ++ q.2)

mutual

/-- A `SimpleStatementLine` whose whole body was removed is dropped by
LibCST's `visit_body_sequence` (`_is_removable`); an originally empty line
is kept. -/
def removeUnusedStmt (used : List String) : Stmt → Option Stmt × List String
  | .sline body =>
      let p := removeUnusedSmalls used body
      if p.1.isEmpty ∧ ¬body.isEmpty then (none, p.2)
      else (some (.sline p.1), p.2)
  | .sfun nm ps body =>
      let q := removeUnusedStmts used body
      (some (.sfun nm ps q.1), q.2)
  | .sclass nm body =>
      let q := removeUnusedStmts used body
      (some (.sclass nm q.1), q.2)

def removeUnusedStmts (used : List String) : Stmts → Stmts × List String
  | .nil => (.nil, [])
  | .cons s r =>
      let p := removeUnusedStmt used s
      let q := removeUnusedStmts used r
      (match p.1 with
        | some s' => .cons s' q.1
        | none => q.1, p.2 ++ q.2)

end

/-- `remove_unused_imports` on a parsed module. -/
def remove_unused_imports (m : Module) : Module × List String :=
  let used := usedNames m
  let p := removeUnusedStmts used m.body
  (⟨p.1⟩, p.2)

/-! ## `DefinitionRemover` and `remove_definition` -/

/-- Does any assignment target in the list equal `Name(name)`? -/
def targetsHaveName (name : String) : Exprs → Bool
  | .nil => false
  | .cons (.ename v) r => v = name || targetsHaveName name r
  | .cons _ r => targetsHaveName name r

/-- `leave_SimpleStatementLine`: the whole line is removed when any `Assign`
in its body targets `name`. -/
def lineTargetsName (name : String) : List SmallStmt → Bool
  | [] => false
  | .sAssign ts _ :: r => targetsHaveName name ts || lineTargetsName name r
  | _ :: r => lineTargetsName name r

mutual

def removeDefStmt (name : String) : Stmt → Option Stmt × Bool
  | .sline body =>
      if lineTargetsName name body then (none, true)
      else (some (.sline body), false)
  | .sfun nm ps body =>
      let q := removeDefStmts name body
      if nm = name then (none, true) else (some (.sfun nm ps q.1), q.2)
  | .sclass nm body =>
      let q := removeDefStmts name body
      if nm = name then (none, true) else (some (.sclass nm q.1), q.2)

def removeDefStmts (name : String) : Stmts → Stmts × Bool
  | .nil => (.nil, false)
  | .cons s r =>
      let p := removeDefStmt name s
      let q := removeDefStmts name r
      (match p.1 with
        | some s' => .cons s' q.1
        | none => q.1, p.2 || q.2)

end

/-- `remove_definition` on a parsed module. -/
def remove_definition (m : Module) (name : String) : Module × Bool :=
  let p := removeDefStmts name m.body
  (⟨p.1⟩, p.2)

end Pycastic

namespace Pycastic

/-! ## Symbol table (`src/pyfactor/symbol_table.py`)

`SymbolLocation` is reduced to its `file_path` component: the claims under
verification compare locations only through `location.file_path`, and the
embedding has no character positions.  The `references` list of
`FileSymbols` is omitted: no embedded operation reads it. -/

structure SymbolDefinition where
  name : String
  qualifiedName : String
  filePath : String
  symbolType : String
deriving DecidableEq

structure ImportInfo where
  module : String
  names : List (String × Option String)
  isFromImport : Bool
deriving DecidableEq

structure FileSymbols where
  filePath : String
  definitions : List SymbolDefinition
  imports : List ImportInfo
deriving DecidableEq

/-- `SymbolCollector._qualified_name`. -/
def qualName (moduleName : String) (stack : List String) (n : String) : String :=
  let scope :=
    if stack.isEmpty then moduleName
    else moduleName ++ "." ++ joinWith "." stack
  scope ++ "." ++ n

/-- `visit_Assign`: one `variable` definition per bare-`Name` target. -/
def assignTargetDefs (fp moduleName : String) (stack : List String) :
    Exprs → List SymbolDefinition
  | .nil => []
  | .cons (.ename v) r =>
      ⟨v, qualName moduleName stack v, fp, "variable"⟩ ::
        assignTargetDefs fp moduleName stack r
  | .cons _ r => assignTargetDefs fp moduleName stack r

/-- `visit_Assign` / `visit_AnnAssign`: definitions are emitted only when the
scope stack is empty. -/
def collectSmallDefs (fp moduleName : String) (stack : List String) :
    SmallStmt → List SymbolDefinition
  | .sAssign ts _ =>
      if stack.isEmpty then assignTargetDefs fp moduleName stack ts else []
  | .sAnnAssign (.ename v) _ _ =>
      if stack.isEmpty then [⟨v, qualName moduleName stack v, fp, "variable"⟩]
      else []
  | _ => []

mutual

/-- `visit_ClassDef` / `visit_FunctionDef`: a definition is appended
**unconditionally** (at every scope depth), then the name is pushed on the
stack for the body. -/
def collectStmtDefs (fp moduleName : String) (stack : List String) :
    Stmt → List SymbolDefinition
  | .sline body => body.flatMap (collectSmallDefs fp moduleName stack)
  | .sfun nm _ body =>
      ⟨nm, qualName moduleName stack nm, fp, "function"⟩ ::
        collectStmtsDefs fp moduleName (stack ++ [nm]) body
  | .sclass nm body =>
      ⟨nm, qualName moduleName stack nm, fp, "class"⟩ ::
        collectStmtsDefs fp moduleName (stack ++ [nm]) body

def collectStmtsDefs (fp moduleName : String) (stack : List String) :
    Stmts → List SymbolDefinition
  | .nil => []
  | .cons s r =>
      collectStmtDefs fp moduleName stack s ++
        collectStmtsDefs fp moduleName stack r

end

/-- `"." * relative_depth`. -/
def relPrefix (d : Nat) : String := String.mk (List.replicate d '.')

/-- `visit_Import` / `visit_ImportFrom` of `SymbolCollector`. -/
def importInfoOfSmall : SmallStmt → List ImportInfo
  | .sImport aliases =>
      [⟨"", aliases.map (fun a => (dottedStr a.parts, a.asname)), false⟩]
  | .sImportFrom d mod names =>
      let ns :=
        match names with
        | .star => [("*", (none : Option String))]
        | .named xs => xs.map (fun a => (a.nameVal, a.asname))
      [⟨relPrefix d ++ dottedStr mod, ns, true⟩]
  | _ => []

mutual

def importInfosStmt : Stmt → List ImportInfo
  | .sline body => body.flatMap importInfoOfSmall
  | .sfun _ _ body => importInfosStmts body
  | .sclass _ body => importInfosStmts body

def importInfosStmts : Stmts → List ImportInfo
  | .nil => []
  | .cons s r => importInfosStmt s ++ importInfosStmts r

end

/-- Strip the `.py` extension of a path component. -/
def stripPyExt (s : String) : String :=
  if strEndsWith s ".py" then strDropRight s 3 else s

/-- `_path_to_module` on a root-relative path with `/` separators. -/
def _path_to_module (relPath : String) : String :=
  let parts := splitStr '/' relPath
  let parts :=
    match parts.reverse with
    | [] => []
    | lastPart :: restRev => (stripPyExt lastPart :: restRev).reverse
  let parts :=
    match parts.reverse with
    | lastPart :: restRev => if lastPart = "__init__" then restRev.reverse else parts
    | [] => parts
  joinWith "." parts

/-! ## The filesystem model

A project is the list of its files in `os.walk` order, with root-relative
`/`-separated paths.  A file records its on-disk text and its parse result
(`none` = `ParserSyntaxError`).  Writing back stores the new tree; the
stale `text` field is never read after a write (position-based target
resolution, the only text consumer, runs before any write). -/

structure PyFile where
  text : String
  tree : Option Module
deriving DecidableEq

/-- A project filesystem. -/
abbrev FS := List (String × PyFile)

def lookupFS (fs : FS) (p : String) : Option PyFile :=
  (fs.find? (fun e => e.1 = p)).map (fun e => e.2)

/-- `_get_python_files`: files ending in `.py`, in walk order. -/
def getPythonFiles (fs : FS) : FS := fs.filter (fun e => strEndsWith e.1 ".py")

def writeTree (fs : FS) (p : String) (m : Module) : FS :=
  fs.map (fun e => if e.1 = p then (e.1, { e.2 with tree := some m }) else e)

def applyChanges (fs : FS) (changes : List (String × Module)) : FS :=
  changes.foldl (fun acc c => writeTree acc c.1 c.2) fs

/-- `collect_file_symbols`: `None` when the file does not parse. -/
def collect_file_symbols (fp : String) (pf : PyFile) : Option FileSymbols :=
  match pf.tree with
  | none => none
  | some m =>
      let moduleName := _path_to_module fp
      some ⟨fp, collectStmtsDefs fp moduleName [] m.body, importInfosStmts m.body⟩

/-- `SymbolTable.build`: scan the project, skipping unparseable files. -/
def buildTable (fs : FS) : List (String × FileSymbols) :=
  (getPythonFiles fs).filterMap fun e =>
    (collect_file_symbols e.1 e.2).map (fun s => (e.1, s))

def tableFind (files : List (String × FileSymbols)) (p : String) :
    Option FileSymbols :=
  (files.find? (fun e => e.1 = p)).map (fun e => e.2)

/-- `SymbolTable.find_definition`: first definition with that name in that
file, or none (also none when the file is not in the table). -/
def find_definition (files : List (String × FileSymbols)) (p name : String) :
    Option SymbolDefinition :=
  match tableFind files p with
  | none => none
  | some s => s.definitions.find? (fun d => d.name = name)

/-- `SymbolTable.find_all_definitions_by_name` via `definitions_by_name`. -/
def find_all_definitions_by_name (files : List (String × FileSymbols))
    (name : String) : List SymbolDefinition :=
  (files.flatMap (fun e => e.2.definitions)).filter (fun d => d.name = name)

end Pycastic

namespace Pycastic

/-! ## Errors and targets (`src/pycastic/errors.py`, `parsing.py`)

Tagged errors as raised at the operation boundary: untagged Python
exceptions (`ParserSyntaxError` escaping a helper, `ValueError`,
`IndexError`, missing-file `OSError`) are wrapped into `RefactoringError`
by the operations' outer `except Exception` clause, so the embedding raises
`.refactoring` at those sites directly. -/

inductive PyErr where
  | targetParse
  | symbolNotFound
  | ambiguous (matchList : List SymbolDefinition)
  | refactoring
  | circular (sharedSymbols : List String)
deriving DecidableEq

/-- Info messages, abstracted to their tag and payload. -/
inductive InfoMsg where
  | alsoDefinedIn (files : List String)
  | autoExtractShared (sharedFile : String) (sharedSymbols : List String)
  | autoIncluding (syms : List String)
deriving DecidableEq

/-- A parsed target specification (`SymbolByName` / `SymbolsByName` /
`SymbolByPosition`). -/
inductive TargetSpec where
  | byName (path : String) (symbolName : String)
  | byNames (path : String) (symbolNames : List String)
  | byPosition (path : String) (line col : Nat)
deriving DecidableEq

/-! ## Position-based symbol lookup (`core.py`,
`_find_symbol_name_at_position`) -/

/-- `str.splitlines(keepends=True)`, newline-only endings modeled. -/
def splitKeepNL : List Char → List (List Char)
  | [] => []
  | c :: rest =>
      if c = '\n' then ['\n'] :: splitKeepNL rest
      else match splitKeepNL rest with
        | [] => [[c]]
        | g :: gs => (c :: g) :: gs

/-- Character offset of `line:column` (1-based line, as the source computes
it); `none` models the `IndexError` when `line - 1` exceeds the number of
lines. -/
def offsetAt (text : String) (line col : Nat) : Option Int :=
  let ls := splitKeepNL text.data
  if ls.length < line - 1 then none
  else some ((((ls.take (line - 1)).map List.length).sum : Int) + (col : Int) - 1)

/-- `isalnum() or == "_"` on the ASCII fragment. -/
def isIdentChar (c : Char) : Bool := c.isAlphanum || c = '_'

/-- Walk backward while the preceding character is an identifier char. -/
def expandBack (cs : List Char) : Nat → Nat
  | 0 => 0
  | j + 1 => if isIdentChar (cs.getD j ' ') then expandBack cs j else j + 1

/-- Walk forward while the current character is an identifier char. -/
def expandFwd (cs : List Char) (i : Nat) : Nat :=
  if h : i < cs.length then
    if isIdentChar (cs.get ⟨i, h⟩) then expandFwd cs (i + 1) else i
  else i
termination_by cs.length - i

/-- Identifier expansion around an offset.  A negative offset (column 0 on
line 1) is reported as `SymbolNotFound`; CPython's negative-index
wraparound is not modeled — in every claim this branch is preempted by the
parse-failure check.  An offset beyond the end of the text hits an
`IndexError` (wrapped `RefactoringError`). -/
def scanIdentAt (text : String) (off : Int) : Except PyErr String :=
  let cs := text.data
  if off < 0 then .error .symbolNotFound
  else if cs.length < off.toNat then .error .refactoring
  else
    let start := expandBack cs off.toNat
    let stop := expandFwd cs off.toNat
    let name := (cs.drop start).take (stop - start)
    match name with
    | [] => .error .symbolNotFound
    | c :: _ =>
        if c.isAlpha || c = '_' then .ok (String.mk name)
        else .error .symbolNotFound

/-- `_find_symbol_name_at_position`: the offset is computed first (an
`IndexError` is wrapped into `RefactoringError` at the boundary), then the
file is parsed — a parse failure raises `RefactoringError` before any
scanning. -/
def _find_symbol_name_at_position (pf : PyFile) (line col : Nat) :
    Except PyErr String :=
  match offsetAt pf.text line col with
  | none => .error .refactoring
  | some off =>
      match pf.tree with
      | none => .error .refactoring
      | some _ => scanIdentAt pf.text off

/-- `_resolve_target`.  For a position target the file is read first; a
missing file raises an `OSError` wrapped into `RefactoringError`. -/
def _resolve_target (fs : FS) (t : TargetSpec) :
    Except PyErr (String × List String) :=
  match t with
  | .byName p n => .ok (p, [n])
  | .byNames p ns => .ok (p, ns)
  | .byPosition p line col =>
      match lookupFS fs p with
      | none => .error .refactoring
      | some pf => (_find_symbol_name_at_position pf line col).map (fun n => (p, [n]))

/-! ## `rename_symbol` (`src/pycastic/core.py`) -/

/-- `module_name.split(".")[-1]`. -/
def lastComponent (moduleName : String) : String :=
  (splitStr '.' moduleName).getLastD ""

/-- Does the file hold a from-import of `oldName` (or a star import)? -/
def fileImportsSymbol (fsym : FileSymbols) (oldName : String) : Bool :=
  fsym.imports.any fun imp =>
    imp.isFromImport && imp.names.any (fun nv => nv.1 = oldName || nv.1 = "*")

/-- The per-file edit of `rename_symbol` for a file other than the defining
one: update imports, rename attribute accesses, and — when the file imports
the symbol (or star-imports its module) — rename direct uses. -/
def renameOtherFile (table : List (String × FileSymbols))
    (moduleName oldName newName : String) (p : String) (m : Module) :
    Module × Nat :=
  let p₁ := update_imports_in_source m none none (some oldName) (some newName)
  let p₂ := rename_attribute_in_source p₁.1 (lastComponent moduleName) oldName newName
  let importsSym :=
    match tableFind table p with
    | some fsym => fileImportsSymbol fsym oldName
    | none => false
  let p₃ := if importsSym then rename_in_source p₂.1 oldName newName else (p₂.1, 0)
  (p₃.1, p₁.2 + p₂.2 + p₃.2)

/-- `rename_symbol`: returns the final filesystem, the changed-files list
(diff surrogates under dry run), and the info messages. -/
def rename_symbol (fs : FS) (target : TargetSpec) (newName : String)
    (dryRun : Bool) : Except PyErr (FS × List String × List InfoMsg) := do
  let rt ← _resolve_target fs target
  let filePath := rt.1
  let symbolNames := rt.2
  if symbolNames.length > 1 then throw .refactoring
  let oldName := symbolNames.headD ""
  if (lookupFS fs filePath).isNone then throw .refactoring
  let table := buildTable fs
  if (find_definition table filePath oldName).isNone then throw .symbolNotFound
  let allDefs := find_all_definitions_by_name table oldName
  let sameFileDefs := allDefs.filter (fun d => d.filePath = filePath)
  if sameFileDefs.length > 1 then throw (.ambiguous sameFileDefs)
  let otherFileDefs := allDefs.filter (fun d => d.filePath ≠ filePath)
  let info : List InfoMsg :=
    if otherFileDefs.isEmpty then []
    else [.alsoDefinedIn ((otherFileDefs.take 5).map (fun d => d.filePath))]
  let moduleName := _path_to_module filePath
  let changes₀ : List (String × Module) :=
    match (lookupFS fs filePath).bind (fun pf => pf.tree) with
    | some m =>
        let pr := rename_in_source m oldName newName
        if pr.2 > 0 then [(filePath, pr.1)] else []
    | none => []
  let changes := (getPythonFiles fs).foldl (fun acc e =>
      if e.1 = filePath then acc
      else
        match e.2.tree with
        | none => acc
        | some m =>
            let pr := renameOtherFile table moduleName oldName newName e.1 m
            if pr.2 > 0 ∧ pr.1 ≠ m then acc ++ [(e.1, pr.1)] else acc) changes₀
  if dryRun then
    .ok (fs, changes.map (fun c => c.1), info)
  else
    .ok (applyChanges fs changes, changes.map (fun c => c.1), info)

end Pycastic

namespace Pycastic

/-! ## Dependency analysis (`src/pycastic/dependencies.py`) -/

structure ImportDependency where
  module : String
  name : String
  aliasName : Option String
  isFromImport : Bool
deriving DecidableEq

/-- A recorded definition node: a `ClassDef`/`FunctionDef` statement or an
`Assign`/`AnnAssign` small statement. -/
inductive DefNode where
  | ofStmt (s : Stmt)
  | ofSmall (a : SmallStmt)
deriving DecidableEq

/-- Python `dict` insertion: overwrite in place, else append. -/
def dictUpsert {α : Type} (k : String) (v : α) :
    List (String × α) → List (String × α)
  | [] => [(k, v)]
  | (k', v') :: rest =>
      if k' = k then (k, v) :: rest else (k', v') :: dictUpsert k v rest

def dictGet {α : Type} (l : List (String × α)) (k : String) : Option α :=
  (l.find? (fun e => e.1 = k)).map (fun e => e.2)

/-- Bare-`Name` assignment targets. -/
def assignTargetNames : Exprs → List String
  | .nil => []
  | .cons (.ename v) r => v :: assignTargetNames r
  | .cons _ r => assignTargetNames r

/-- `DefinitionCollector.visit_Assign` / `visit_AnnAssign` image of one
small statement (the caller restricts to depth 0). -/
def depDefsSmall (s : SmallStmt) : List (String × DefNode)  :=
  match s with
  | .sAssign ts _ => (assignTargetNames ts).map (fun n => (n, DefNode.ofSmall s))
  | .sAnnAssign (.ename v) _ _ => [(v, DefNode.ofSmall s)]
  | _ => []

mutual

/-- `DefinitionCollector`: classes, functions and assignments at depth 0
only; traversal still descends into bodies with an incremented depth. -/
def depDefsStmt (depth : Nat) : Stmt → List (String × DefNode)
  | .sline body => if depth = 0 then body.flatMap depDefsSmall else []
  | .sfun nm ps body =>
      (if depth = 0 then [(nm, DefNode.ofStmt (.sfun nm ps body))] else []) ++
        depDefsStmts (depth + 1) body
  | .sclass nm body =>
      (if depth = 0 then [(nm, DefNode.ofStmt (.sclass nm body))] else []) ++
        depDefsStmts (depth + 1) body

def depDefsStmts (depth : Nat) : Stmts → List (String × DefNode)
  | .nil => []
  | .cons s r => depDefsStmt depth s ++ depDefsStmts depth r

end

/-- `DefinitionCollector` result with `dict` overwrite semantics. -/
def depDefinitions (m : Module) : List (String × DefNode) :=
  (depDefsStmts 0 m.body).foldl (fun acc e => dictUpsert e.1 e.2 acc) []

/-- `ImportCollector` image of one small statement: local binding ↦
dependency record.  Star imports contribute nothing. -/
def depImportsSmall : SmallStmt → List (String × ImportDependency)
  | .sImport aliases =>
      aliases.map fun a =>
        let nm := dottedStr a.parts
        (a.asname.getD ((splitStr '.' nm).headD ""), ⟨nm, nm, a.asname, false⟩)
  | .sImportFrom d mod names =>
      match names with
      | .star => []
      | .named xs =>
          let fullMod := relPrefix d ++ dottedStr mod
          xs.map fun a => (a.asname.getD a.nameVal, ⟨fullMod, a.nameVal, a.asname, true⟩)
  | _ => []

mutual

def depImportsStmt : Stmt → List (String × ImportDependency)
  | .sline body => body.flatMap depImportsSmall
  | .sfun _ _ body => depImportsStmts body
  | .sclass _ body => depImportsStmts body

def depImportsStmts : Stmts → List (String × ImportDependency)
  | .nil => []
  | .cons s r => depImportsStmt s ++ depImportsStmts r

end

/-- `ImportCollector` result with `dict` overwrite semantics. -/
def depImports (m : Module) : List (String × ImportDependency) :=
  (depImportsStmts m.body).foldl (fun acc e => dictUpsert e.1 e.2 acc) []

/-! `_get_names_used_by_node`: every `Name` value in the subtree (the
attribute-base addition is subsumed by the child visit).  Unlike the
used-names collector, import internals are included. -/

def identsSmall : SmallStmt → List String
  | .sAssign ts v => usedExprs ts ++ usedExpr v
  | .sAnnAssign t ann v => usedExpr t ++ usedExpr ann ++ (v.map usedExpr).getD []
  | .sImport aliases => aliases.flatMap (fun a => a.parts ++ a.asname.toList)
  | .sImportFrom _ mod names =>
      mod ++
        (match names with
          | .star => []
          | .named xs => xs.flatMap (fun a => a.nameVal :: a.asname.toList))
  | .sExpr e => usedExpr e
  | .sReturn e => (e.map usedExpr).getD []
  | .sPass => []

mutual

def identsStmt : Stmt → List String
  | .sline body => body.flatMap identsSmall
  | .sfun nm ps body => nm :: ps ++ identsStmts body
  | .sclass nm body => nm :: identsStmts body

def identsStmts : Stmts → List String
  | .nil => []
  | .cons s r => identsStmt s ++ identsStmts r

end

def identsDefNode : DefNode → List String
  | .ofStmt s => identsStmt s
  | .ofSmall a => identsSmall a

structure SymbolDeps where
  requiredImports : List ImportDependency
  internalDeps : List String
  internalUsages : List String
deriving DecidableEq

/-- `DependencyAnalyzer.analyze_symbol`; `none` models the `ValueError` for
an unknown symbol. -/
def analyze_symbol (defs : List (String × DefNode))
    (imps : List (String × ImportDependency)) (symbolName : String) :
    Option SymbolDeps :=
  match dictGet defs symbolName with
  | none => none
  | some node =>
      let namesUsed := (identsDefNode node).dedup.filter (fun n => n ≠ symbolName)
      let required := namesUsed.filterMap (fun n => dictGet imps n)
      let internal := namesUsed.filter fun n =>
        (dictGet imps n).isNone ∧ (dictGet defs n).isSome ∧ n ≠ symbolName
      let usages := defs.filterMap fun e =>
        if e.1 ≠ symbolName ∧ symbolName ∈ identsDefNode e.2 then some e.1
        else none
      some ⟨required, internal, usages⟩

/-! ## `resolve_move_dependencies` -/

/-- Set insertion (Python `set.add`). -/
def setInsert (x : String) (l : List String) : List String :=
  if x ∈ l then l else l ++ [x]

structure MoveState where
  moveSet : List String
  sharedDeps : List String
  requiredImports : List ((String × String) × ImportDependency)
deriving DecidableEq

/-- `required_imports[(module, name)] = imp` if the key is fresh. -/
def riInsert (imp : ImportDependency)
    (ri : List ((String × String) × ImportDependency)) :
    List ((String × String) × ImportDependency) :=
  if (ri.find? (fun e => e.1 = (imp.module, imp.name))).isSome then ri
  else ri ++ [((imp.module, imp.name), imp)]

/-- Inner loop over the internal dependencies of one symbol.  An unknown
symbol raises `ValueError`, wrapped into `RefactoringError` at the
boundary. -/
def processDeps (defs : List (String × DefNode))
    (imps : List (String × ImportDependency)) (includeShared : Bool) :
    List String → MoveState → Bool → Except PyErr (MoveState × Bool)
  | [], st, changed => .ok (st, changed)
  | d :: rest, st, changed =>
      if d ∈ st.moveSet then processDeps defs imps includeShared rest st changed
      else
        match analyze_symbol defs imps d with
        | none => .error .refactoring
        | some info =>
            let remaining := info.internalUsages.filter (fun u => u ∉ st.moveSet)
            if remaining.isEmpty ∨ includeShared then
              processDeps defs imps includeShared rest
                { st with moveSet := st.moveSet ++ [d] } true
            else
              processDeps defs imps includeShared rest
                { st with sharedDeps := setInsert d st.sharedDeps } changed

/-- Outer loop over a snapshot (`list(move_set)`) of the move set. -/
def processSymbols (defs : List (String × DefNode))
    (imps : List (String × ImportDependency)) (includeShared : Bool) :
    List String → MoveState → Bool → Except PyErr (MoveState × Bool)
  | [], st, changed => .ok (st, changed)
  | s :: rest, st, changed =>
      match analyze_symbol defs imps s with
      | none => .error .refactoring
      | some deps =>
          let st :=
            { st with
              requiredImports :=
                deps.requiredImports.foldl (fun acc i => riInsert i acc)
                  st.requiredImports }
          match processDeps defs imps includeShared deps.internalDeps st changed with
          | .error e => .error e
          | .ok (st', ch') => processSymbols defs imps includeShared rest st' ch'

/-- One `while changed` pass. -/
def movePass (defs : List (String × DefNode))
    (imps : List (String × ImportDependency)) (includeShared : Bool)
    (st : MoveState) : Except PyErr (MoveState × Bool) :=
  processSymbols defs imps includeShared st.moveSet st false

/-- The `while changed` loop, with fuel.  Theorem
`resolve_move_terminates` shows `defs.length + 1` passes always reach the
fixpoint when the seeds are defined, so the fueled function computes the
Python loop. -/
def moveLoop (defs : List (String × DefNode))
    (imps : List (String × ImportDependency)) (includeShared : Bool) :
    Nat → MoveState → Except PyErr MoveState
  | 0, st => .ok st
  | fuel + 1, st =>
      match movePass defs imps includeShared st with
      | .error e => .error e
      | .ok (st', ch) =>
          if ch then moveLoop defs imps includeShared fuel st' else .ok st'

/-- `resolve_move_dependencies` on a parsed source module. -/
def resolve_move_dependencies (m : Module) (symbolsToMove : List String)
    (includeShared : Bool) :
    Except PyErr (List String × List String × List ImportDependency) :=
  let defs := depDefinitions m
  let imps := depImports m
  match moveLoop defs imps includeShared (defs.length + 1)
      ⟨symbolsToMove.dedup, [], []⟩ with
  | .error e => .error e
  | .ok st => .ok (st.moveSet, st.sharedDeps, st.requiredImports.map (fun e => e.2))

/-! ## `move_symbol` (`src/pycastic/core.py`): resolution phase and the
filesystem trace of a dry run

`move_symbol_resolve` embeds `move_symbol` from target resolution through
the shared-dependency policy decision (core.py lines 278–304): everything
before the first filesystem mutation.  `move_symbol_dry_run_fs` continues
with the destination/shared-file creation steps (lines 306–320) and then
returns the filesystem as it stands when `move_symbol(dry_run=True)`
returns: no statement between those creations and the dry-run return
mutates the filesystem. -/

def fileDirParts (p : String) : List String := (splitStr '/' p).dropLast

def fileStem (p : String) : String := stripPyExt ((splitStr '/' p).getLastD "")

def joinPath (parts : List String) : String := joinWith "/" parts

/-- `source_file.parent / f"…_common.py"`, root-relative. -/
def defaultSharedPath (sourceFile : String) : String :=
  joinPath (fileDirParts sourceFile ++ [fileStem sourceFile ++ "_common.py"])

structure MovePlan where
  sourceFile : String
  finalMoveList : List String
  sharedDeps : List String
  requiredImports : List ImportDependency
  sharedFile : Option String
  info : List InfoMsg
deriving DecidableEq

def move_symbol_resolve (fs : FS) (target : TargetSpec) (includeDeps : Bool)
    (sharedFile : Option String) : Except PyErr MovePlan := do
  let rt ← _resolve_target fs target
  let sourceFile := rt.1
  let initialSymbols := rt.2
  match lookupFS fs sourceFile with
  | none => throw .refactoring
  | some pf =>
    match pf.tree with
    | none => throw .refactoring
    | some m => do
      let r ← resolve_move_dependencies m initialSymbols includeDeps
      let finalMoveList := r.1
      let sharedDeps := r.2.1
      let requiredImports := r.2.2
      let sfInfo : Option String × List InfoMsg :=
        if ¬sharedDeps.isEmpty ∧ ¬includeDeps ∧ sharedFile.isNone then
          (some (defaultSharedPath sourceFile),
            [.autoExtractShared (defaultSharedPath sourceFile) sharedDeps])
        else (sharedFile, [])
      let autoIncluded := finalMoveList.filter (fun s => s ∉ initialSymbols)
      let info :=
        sfInfo.2 ++ (if autoIncluded.isEmpty then [] else [.autoIncluding autoIncluded])
      .ok ⟨sourceFile, finalMoveList, sharedDeps, requiredImports, sfInfo.1, info⟩

/-- `'"""Package."""\n'`, the package-marker seed. -/
def packageText : String := "\"\"\"Package.\"\"\"\n"

def packageModule : Module := ⟨.cons (.sline [.sExpr (.estr "Package.")]) .nil⟩

/-- `_ensure_package_init_files`: climb from the directory to (excluding)
the project root, creating missing `__init__.py` files. -/
def ensureInitAux (dirParts : List String) : Nat → FS → FS
  | 0, fs => fs
  | k + 1, fs =>
      let current := dirParts.take (k + 1)
      let initPath := joinPath (current ++ ["__init__.py"])
      let fs' :=
        if (lookupFS fs initPath).isSome then fs
        else fs ++ [(initPath, ⟨packageText, some packageModule⟩)]
      ensureInitAux dirParts k fs'

def ensureInitFiles (dirParts : List String) (fs : FS) : FS :=
  ensureInitAux dirParts dirParts.length fs

/-- `f'"""{stem} module."""\n'`. -/
def seedText (stem : String) : String := "\"\"\"" ++ stem ++ " module.\"\"\"\n"

def seedModule (stem : String) : Module :=
  ⟨.cons (.sline [.sExpr (.estr (stem ++ " module."))]) .nil⟩

/-- Lines 306–310 / 316–319: create the file (and the package markers on
its directory chain) when absent. -/
def createFileIfMissing (fs : FS) (path : String) : FS :=
  if (lookupFS fs path).isSome then fs
  else
    let fs₁ := ensureInitFiles (fileDirParts path) fs
    fs₁ ++ [(path, ⟨seedText (fileStem path), some (seedModule (fileStem path))⟩)]

/-- The filesystem as `move_symbol(dry_run=True)` leaves it: the
destination file (and, when shared dependencies are extracted, the shared
file) is created **before** the dry-run early return; no other write
happens on the dry-run path.  (Errors raised after the creation step are
not modeled; the claims' inputs do not reach them.) -/
def move_symbol_dry_run_fs (fs : FS) (target : TargetSpec)
    (destinationFile : String) (includeDeps : Bool)
    (sharedFile : Option String) : Except PyErr FS := do
  let plan ← move_symbol_resolve fs target includeDeps sharedFile
  let fs₁ := createFileIfMissing fs destinationFile
  let fs₂ :=
    match plan.sharedFile with
    | some sf => if ¬plan.sharedDeps.isEmpty then createFileIfMissing fs₁ sf else fs₁
    | none => fs₁
  .ok fs₂

end Pycastic

deriving instance DecidableEq for Except

namespace Pycastic

/-! ### C1 / C2 concrete projects -/

/-- Body `return 42`. -/
def retIntBody : Stmts := .cons (.sline [.sReturn (some (.eint 42))]) .nil

/-- Body `return shared_helper()`. -/
def callSharedBody : Stmts :=
  .cons (.sline [.sReturn (some (.ecall (.ename "shared_helper") .nil))]) .nil

/-- `utils.py` of the shared-dependency scenario: `shared_helper` is used by
both `func_a` and `func_b`. -/
def sharedDepModule : Module :=
  ⟨.cons (.sfun "shared_helper" [] retIntBody)
    (.cons (.sfun "func_a" [] callSharedBody)
      (.cons (.sfun "func_b" [] callSharedBody) .nil))⟩

def sharedDepText : String :=
  "def shared_helper():\n    return 42\n\n\ndef func_a():\n    return shared_helper()\n\n\ndef func_b():\n    return shared_helper()\n"

def sharedDepFS : FS := [("utils.py", ⟨sharedDepText, some sharedDepModule⟩)]


/-- A one-function project with no shared dependencies. -/
def simpleMoveModule : Module := ⟨.cons (.sfun "helper" [] retIntBody) .nil⟩

def simpleMoveFS : FS :=
  [("utils.py", ⟨"def helper():\n    return 42\n", some simpleMoveModule⟩)]


end Pycastic

namespace Pycastic

/-- A module body made only of simple statement lines. -/
def ofLines : List (List SmallStmt) → Stmts
  | [] => .nil
  | b :: r => .cons (.sline b) (ofLines r)

/-! ### Claim-side name collections for the symbol-table characterization -/

mutual

/-- Names of class and function definitions at every nesting depth. -/
def classFunNamesStmt : Stmt → List String
  | .sline _ => []
  | .sfun nm _ b => nm :: classFunNamesStmts b
  | .sclass nm b => nm :: classFunNamesStmts b

def classFunNamesStmts : Stmts → List String
  | .nil => []
  | .cons s r => classFunNamesStmt s ++ classFunNamesStmts r

end

/-- Bare-name targets of an assignment or annotated assignment. -/
def topAssignNamesSmall : SmallStmt → List String
  | .sAssign ts _ => assignTargetNames ts
  | .sAnnAssign (.ename v) _ _ => [v]
  | _ => []

/-- Bare-name assignment targets of a module-level statement. -/
def topAssignNamesStmt : Stmt → List String
  | .sline b => b.flatMap topAssignNamesSmall
  | _ => []

/-- Bare-name assignment targets of the module-level statement lines. -/
def topAssignNames : Stmts → List String
  | .nil => []
  | .cons s r => topAssignNamesStmt s ++ topAssignNames r

/-- `f.py` containing a function nested inside another function. -/
def nestedDefModule : Module :=
  ⟨.cons
    (.sfun "outer" []
      (.cons (.sfun "inner" [] (.cons (.sline [.sPass]) .nil)) .nil))
    .nil⟩

def nestedDefFS : FS :=
  [("f.py", ⟨"def outer():\n    def inner():\n        pass\n",
    some nestedDefModule⟩)]

end Pycastic

namespace Pycastic

/-! ### Claim-side description of `remove_unused_imports`

An import alias is kept exactly when its local binding — the alias if
present, else the **first** dotted component of the target for plain
 imports, else the imported name for from-imports — appears as a `Name`
outside import statements in the file; star imports are preserved
verbatim; an import statement none of whose names remain is removed
entirely (and a statement line emptied that way is dropped, as LibCST
does). -/

/-- Local bindings of the import aliases of one small statement (star
 imports contribute none). -/
def importLocalsSmall : SmallStmt → List String
  | .sImport xs => xs.map plainLocalName
  | .sImportFrom _ _ (.named xs) => xs.map fromLocalName
  | _ => []

mutual

def importLocalsStmt : Stmt → List String
  | .sline b => b.flatMap importLocalsSmall
  | .sfun _ _ b => importLocalsStmts b
  | .sclass _ b => importLocalsStmts b

def importLocalsStmts : Stmts → List String
  | .nil => []
  | .cons s r => importLocalsStmt s ++ importLocalsStmts r

end

/-- Claim-side keep function on one small statement. -/
def specKeepSmall (used : List String) : SmallStmt → Option SmallStmt
  | .sImportFrom d mod .star => some (.sImportFrom d mod .star)
  | .sImportFrom d mod (.named xs) =>
      let kept := xs.filter (fun a => fromLocalName a ∈ used)
      if kept.isEmpty then none else some (.sImportFrom d mod (.named kept))
  | .sImport xs =>
      let kept := xs.filter (fun a => plainLocalName a ∈ used)
      if kept.isEmpty then none else some (.sImport kept)
  | s => some s

mutual

def specKeepStmt (used : List String) : Stmt → Option Stmt
  | .sline b =>
      let kept := b.filterMap (specKeepSmall used)
      if kept.isEmpty ∧ ¬b.isEmpty then none else some (.sline kept)
  | .sfun nm ps b => some (.sfun nm ps (specKeepStmts used b))
  | .sclass nm b => some (.sclass nm (specKeepStmts used b))

def specKeepStmts (used : List String) : Stmts → Stmts
  | .nil => .nil
  | .cons s r =>
      match specKeepStmt used s with
      | some s' => .cons s' (specKeepStmts used r)
      | none => specKeepStmts used r

end

/-- The claim's (unamended) local binding for plain imports: the **last**
dotted component of the target. -/
def claimPlainLocalName (a : PlainAlias) : String :=
  a.asname.getD ((splitStr '.' (dottedStr a.parts)).getLastD "")

/-- `import os.path` followed by a use of `os` only. -/
def osPathModule : Module :=
  ⟨.cons (.sline [.sImport [⟨["os", "path"], none⟩]])
    (.cons (.sline [.sExpr (.ename "os")]) .nil)⟩

end Pycastic

namespace Pycastic

/-! ### Claim-side description of `rename_in_source` (C7, amended)

The renameable positions are every `Name` occurrence **except** the dotted
module part of an import and the imported names of import aliases (both
plain and from-import) — so keyword-argument labels, `as`-names,
definition names, parameters, assignment targets, attribute names and
plain uses are all renamed.  `occ…` counts the occurrences of a name at
those positions (the count the function returns when `old ≠ new`). -/

def subst (old new x : String) : String := if x = old then new else x

def occ (x v : String) : Nat := if v = x then 1 else 0

mutual

def amendRenameExpr (old new : String) : Expr → Expr
  | .ename v => .ename (subst old new v)
  | .eattr b f => .eattr (amendRenameExpr old new b) (subst old new f)
  | .eint n => .eint n
  | .estr s => .estr s
  | .ecall fn args =>
      .ecall (amendRenameExpr old new fn) (amendRenameArgs old new args)

def amendRenameExprs (old new : String) : Exprs → Exprs
  | .nil => .nil
  | .cons e r => .cons (amendRenameExpr old new e) (amendRenameExprs old new r)

def amendRenameArgs (old new : String) : Args → Args
  | .nil => .nil
  | .cons kw v r =>
      .cons (kw.map (subst old new)) (amendRenameExpr old new v)
        (amendRenameArgs old new r)

end

mutual

def occExpr (x : String) : Expr → Nat
  | .ename v => occ x v
  | .eattr b f => occExpr x b + occ x f
  | .eint _ => 0
  | .estr _ => 0
  | .ecall fn args => occExpr x fn + occArgs x args

def occExprs (x : String) : Exprs → Nat
  | .nil => 0
  | .cons e r => occExpr x e + occExprs x r

def occArgs (x : String) : Args → Nat
  | .nil => 0
  | .cons kw v r =>
      occExpr x v + occArgs x r +
        (match kw with
          | some k => occ x k
          | none => 0)

end

def occOptExpr (x : String) : Option Expr → Nat
  | none => 0
  | some e => occExpr x e

def amendRenameFromAlias (old new : String) (a : FromAlias) : FromAlias :=
  { a with asname := a.asname.map (subst old new) }

def amendRenamePlainAlias (old new : String) (a : PlainAlias) : PlainAlias :=
  { a with asname := a.asname.map (subst old new) }

def occAsname (x : String) : Option String → Nat
  | some v => occ x v
  | none => 0

def amendRenameSmall (old new : String) : SmallStmt → SmallStmt
  | .sAssign ts v =>
      .sAssign (amendRenameExprs old new ts) (amendRenameExpr old new v)
  | .sAnnAssign t ann v =>
      .sAnnAssign (amendRenameExpr old new t) (amendRenameExpr old new ann)
        (v.map (amendRenameExpr old new))
  | .sImport names => .sImport (names.map (amendRenamePlainAlias old new))
  | .sImportFrom d m names =>
      .sImportFrom d m
        (match names with
          | .star => .star
          | .named xs => .named (xs.map (amendRenameFromAlias old new)))
  | .sExpr e => .sExpr (amendRenameExpr old new e)
  | .sReturn e => .sReturn (e.map (amendRenameExpr old new))
  | .sPass => .sPass

def occSmall (x : String) : SmallStmt → Nat
  | .sAssign ts v => occExprs x ts + occExpr x v
  | .sAnnAssign t ann v => occExpr x t + occExpr x ann + occOptExpr x v
  | .sImport names => (names.map (fun a => occAsname x a.asname)).sum
  | .sImportFrom _ _ names =>
      (match names with
        | .star => 0
        | .named xs => (xs.map (fun a => occAsname x a.asname)).sum)
  | .sExpr e => occExpr x e
  | .sReturn e => occOptExpr x e
  | .sPass => 0

mutual

def amendRenameStmt (old new : String) : Stmt → Stmt
  | .sline body => .sline (body.map (amendRenameSmall old new))
  | .sfun nm ps body =>
      .sfun (subst old new nm) (ps.map (subst old new))
        (amendRenameStmts old new body)
  | .sclass nm body =>
      .sclass (subst old new nm) (amendRenameStmts old new body)

def amendRenameStmts (old new : String) : Stmts → Stmts
  | .nil => .nil
  | .cons s r =>
      .cons (amendRenameStmt old new s) (amendRenameStmts old new r)

end

mutual

def occStmt (x : String) : Stmt → Nat
  | .sline body => (body.map (occSmall x)).sum
  | .sfun nm ps body =>
      (ps.map (occ x)).sum + occStmts x body + occ x nm
  | .sclass nm body => occStmts x body + occ x nm

def occStmts (x : String) : Stmts → Nat
  | .nil => 0
  | .cons s r => occStmt x s + occStmts x r

end

/-- A from-import of `old` followed by a use of `old`. -/
def fromImportUseModule : Module :=
  ⟨.cons (.sline [.sImportFrom 0 ["m"] (.named [⟨"old", none⟩])])
    (.cons (.sline [.sExpr (.ename "old")]) .nil)⟩

/-- What C7 as stated predicts for `fromImportUseModule`: the imported name
renamed along with the use. -/
def fromImportUseRenamedBoth : Module :=
  ⟨.cons (.sline [.sImportFrom 0 ["m"] (.named [⟨"new", none⟩])])
    (.cons (.sline [.sExpr (.ename "new")]) .nil)⟩

end Pycastic

namespace Pycastic

/-! ### C3 concrete project: a file that fails to parse -/

/-- A project whose only file raises `ParserSyntaxError`. -/
def brokenFS : FS := [("bad.py", ⟨"def broken(:\n", none⟩)]

end Pycastic

namespace Pycastic

/-! ### C9 concrete projects and the round-trip composite -/

/-- `f.py` whose text already uses the name `B`: `A = 1` then `x = B`. -/
def invCexModule : Module :=
  ⟨.cons (.sline [.sAssign (.cons (.ename "A") .nil) (.eint 1)])
    (.cons (.sline [.sAssign (.cons (.ename "x") .nil) (.ename "B")]) .nil)⟩

def invCexFS : FS := [("f.py", ⟨"A = 1\nx = B\n", some invCexModule⟩)]

/-- Rename `a → b` across the project, then `b → a` on the result. -/
def renameTwice (fs : FS) (p a b : String) : Except PyErr FS := do
  let r₁ ← rename_symbol fs (.byName p a) b false
  let r₂ ← rename_symbol r₁.1 (.byName p b) a false
  .ok r₂.1

/-- What the round trip actually produces on `invCexFS`: the pre-existing
use of `B` has been rewritten to `A`. -/
def invCexResultFS : FS :=
  [("f.py", ⟨"A = 1\nx = B\n",
    some ⟨.cons (.sline [.sAssign (.cons (.ename "A") .nil) (.eint 1)])
      (.cons (.sline [.sAssign (.cons (.ename "x") .nil) (.ename "A")])
        .nil)⟩⟩)]

/-- A single-file project in which the new name is fresh: `A = 1`. -/
def invWitModule : Module :=
  ⟨.cons (.sline [.sAssign (.cons (.ename "A") .nil) (.eint 1)]) .nil⟩

def invWitFS : FS := [("f.py", ⟨"A = 1\n", some invWitModule⟩)]

/-- `invWitFS` after renaming `A → B`. -/
def invWitMidFS : FS :=
  [("f.py", ⟨"A = 1\n",
    some ⟨.cons (.sline [.sAssign (.cons (.ename "B") .nil) (.eint 1)])
      .nil⟩⟩)]

end Pycastic

/-! # Theorems -/

namespace Parsing

theorem pathOk_iff {l : List Char} : pathOk l = true ↔ SpecPath l := by
  unfold pathOk SpecPath
  simp only [Bool.and_eq_true, decide_eq_true_eq, List.isSuffixOf_iff_suffix,
    List.all_eq_true]
  constructor
  · rintro ⟨⟨hlen, q, rfl⟩, hall⟩
    refine ⟨q, rfl, ?_, ?_⟩
    · intro h0
      subst h0
      simp at hlen
    · intro c hc
      have := hall c (List.mem_append_left _ hc)
      simpa [isDotChar] using this
  · rintro ⟨q, rfl, h0, hnl⟩
    refine ⟨⟨?_, ⟨q, rfl⟩⟩, ?_⟩
    · have : 1 ≤ q.length := List.length_pos.mpr h0
      simp only [List.length_append, List.length_cons, List.length_nil]
      omega
    · intro c hc
      rcases List.mem_append.mp hc with h | h
      · simpa [isDotChar] using hnl c h
      · fin_cases h <;> simp [isDotChar]

theorem identOk_iff {l : List Char} : identOk l = true ↔ SpecIdent l := by
  simp [identOk, SpecIdent, List.all_eq_true, List.isEmpty_iff]

theorem digitsOk_iff {l : List Char} : digitsOk l = true ↔ SpecDigits l := by
  simp [digitsOk, SpecDigits, List.all_eq_true, List.isEmpty_iff]

theorem splitComma_ne_nil (l : List Char) : splitComma l ≠ [] := by
  induction l with
  | nil => simp [splitComma]
  | cons c rest ih =>
    simp only [splitComma]
    split
    · simp
    · cases h : splitComma rest <;> simp

theorem joinComma_cons (g : List Char) {r : List (List Char)} (h : r ≠ []) :
    joinComma (g :: r) = g ++ ',' :: joinComma r := by
  cases r with
  | nil => exact absurd rfl h
  | cons a as => rfl

theorem joinComma_splitComma (l : List Char) : joinComma (splitComma l) = l := by
  induction l with
  | nil => rfl
  | cons c rest ih =>
    by_cases hc : c = ','
    · subst hc
      have hs : splitComma (',' :: rest) = [] :: splitComma rest := by
        simp [splitComma]
      rw [hs, joinComma_cons _ (splitComma_ne_nil rest), ih]
      rfl
    · simp only [splitComma, if_neg hc]
      cases h : splitComma rest with
      | nil => exact absurd h (splitComma_ne_nil rest)
      | cons g gs =>
        rw [h] at ih
        cases gs with
        | nil =>
          simp only [joinComma] at ih ⊢
          rw [ih]
        | cons a as =>
          rw [joinComma_cons (c :: g) (by simp), List.cons_append,
            ← joinComma_cons g (by simp), ih]

theorem splitComma_no_comma {g : List Char} (h : ∀ c ∈ g, c ≠ ',') :
    splitComma g = [g] := by
  induction g with
  | nil => rfl
  | cons c rest ih =>
    have hc : c ≠ ',' := h c (by simp)
    simp only [splitComma, if_neg hc]
    rw [ih (fun x hx => h x (by simp [hx]))]

theorem splitComma_append_comma {g : List Char} (t : List Char)
    (h : ∀ c ∈ g, c ≠ ',') :
    splitComma (g ++ ',' :: t) = g :: splitComma t := by
  induction g with
  | nil => simp [splitComma]
  | cons c rest ih =>
    have hc : c ≠ ',' := h c (by simp)
    simp only [List.cons_append, splitComma, if_neg hc, List.append_eq]
    rw [ih (fun x hx => h x (by simp [hx]))]

theorem splitComma_joinComma {gs : List (List Char)} (h0 : gs ≠ [])
    (h : ∀ g ∈ gs, ∀ c ∈ g, c ≠ ',') :
    splitComma (joinComma gs) = gs := by
  induction gs with
  | nil => exact absurd rfl h0
  | cons g rest ih =>
    cases rest with
    | nil =>
      simp only [joinComma]
      exact splitComma_no_comma (h g (by simp))
    | cons a as =>
      rw [joinComma_cons g (by simp),
        splitComma_append_comma _ (h g (by simp)),
        ih (by simp) (fun x hx => h x (by simp [hx]))]

theorem specIdent_no_comma {g : List Char} (h : SpecIdent g) : ∀ c ∈ g, c ≠ ',' := by
  intro c hc
  have := h.2 c hc
  intro h'
  subst h'
  simp [isWordChar, Char.isAlphanum, Char.isAlpha, Char.isUpper, Char.isLower,
    Char.isDigit] at this

theorem core2_iff (P : List Char → Bool) {l : List Char} :
    ((List.range (l.length + 1)).any fun i =>
        pathOk (l.take i) && (l.drop i).take 2 = [':', ':'] && P ((l.drop i).drop 2))
      = true ↔
    ∃ p r, SpecPath p ∧ P r = true ∧ l = p ++ ':' :: ':' :: r := by
  rw [List.any_eq_true]
  constructor
  · rintro ⟨i, -, hi⟩
    simp only [Bool.and_eq_true, decide_eq_true_eq] at hi
    obtain ⟨⟨hp, hc⟩, hP⟩ := hi
    refine ⟨l.take i, (l.drop i).drop 2, pathOk_iff.mp hp, hP, ?_⟩
    conv_lhs => rw [← List.take_append_drop i l]
    congr 1
    conv_lhs => rw [← List.take_append_drop 2 (l.drop i)]
    rw [hc]
    rfl
  · rintro ⟨p, r, hp, hP, rfl⟩
    refine ⟨p.length, ?_, ?_⟩
    · rw [List.mem_range]
      simp only [List.length_append, List.length_cons]
      omega
    · simp only [Bool.and_eq_true, decide_eq_true_eq]
      rw [List.take_left, List.drop_left]
      exact ⟨⟨pathOk_iff.mpr hp, rfl⟩, hP⟩

theorem posCore_iff {l : List Char} :
    posCoreOk l = true ↔
      ∃ p d₁ d₂, SpecPath p ∧ SpecDigits d₁ ∧ SpecDigits d₂ ∧
        l = p ++ ':' :: (d₁ ++ ':' :: d₂) := by
  unfold posCoreOk
  rw [List.any_eq_true]
  constructor
  · rintro ⟨i, -, hi⟩
    rw [Bool.and_eq_true] at hi
    obtain ⟨hp, hm⟩ := hi
    cases hdi : l.drop i with
    | nil => rw [hdi] at hm; simp at hm
    | cons c rest =>
      rw [hdi] at hm
      simp only [Bool.and_eq_true, decide_eq_true_eq] at hm
      obtain ⟨hc, hm⟩ := hm
      subst hc
      rw [List.any_eq_true] at hm
      obtain ⟨j, -, hj⟩ := hm
      rw [Bool.and_eq_true] at hj
      obtain ⟨hd₁, hm₂⟩ := hj
      cases hdj : rest.drop j with
      | nil => rw [hdj] at hm₂; simp at hm₂
      | cons c₂ ds =>
        rw [hdj] at hm₂
        simp only [Bool.and_eq_true, decide_eq_true_eq] at hm₂
        obtain ⟨hc₂, hd₂⟩ := hm₂
        subst hc₂
        refine ⟨l.take i, rest.take j, ds, pathOk_iff.mp hp,
          digitsOk_iff.mp hd₁, digitsOk_iff.mp hd₂, ?_⟩
        conv_lhs => rw [← List.take_append_drop i l]
        rw [hdi]
        congr 2
        conv_lhs => rw [← List.take_append_drop j rest]
        rw [hdj]
  · rintro ⟨p, d₁, d₂, hp, hd₁, hd₂, rfl⟩
    refine ⟨p.length, ?_, ?_⟩
    · rw [List.mem_range]
      simp only [List.length_append, List.length_cons]
      omega
    · rw [Bool.and_eq_true, List.take_left, List.drop_left]
      refine ⟨pathOk_iff.mpr hp, ?_⟩
      simp only [Bool.and_eq_true, decide_eq_true_eq]
      refine ⟨trivial, ?_⟩
      rw [List.any_eq_true]
      refine ⟨d₁.length, ?_, ?_⟩
      · rw [List.mem_range]
        simp only [List.length_append, List.length_cons]
        omega
      · rw [Bool.and_eq_true, List.take_left, List.drop_left]
        refine ⟨digitsOk_iff.mpr hd₁, ?_⟩
        simp only [Bool.and_eq_true, decide_eq_true_eq]
        exact ⟨trivial, digitsOk_iff.mpr hd₂⟩

theorem specTarget_iff_cores {l : List Char} :
    SpecTarget l ↔
      (multiCoreOk l || (nameCoreOk l || posCoreOk l)) = true := by
  simp only [Bool.or_eq_true]
  constructor
  · rintro (⟨p, gs, hp, h0, hgs, rfl⟩ | ⟨p, d₁, d₂, hp, h₁, h₂, rfl⟩)
    · cases gs with
      | nil => exact absurd rfl h0
      | cons g rest =>
        cases rest with
        | nil =>
          refine Or.inr (Or.inl ?_)
          unfold nameCoreOk
          rw [core2_iff]
          exact ⟨p, g, hp, identOk_iff.mpr (hgs g (by simp)), rfl⟩
        | cons a as =>
          refine Or.inl ?_
          unfold multiCoreOk
          rw [core2_iff]
          refine ⟨p, joinComma (g :: a :: as), hp, ?_, rfl⟩
          unfold multiIdentsOk
          rw [splitComma_joinComma (by simp)
            (fun x hx => specIdent_no_comma (hgs x hx))]
          simp only [Bool.and_eq_true, decide_eq_true_eq, List.all_eq_true]
          exact ⟨by simp [Nat.succ_le_succ], fun x hx => identOk_iff.mpr (hgs x hx)⟩
    · refine Or.inr (Or.inr ?_)
      rw [posCore_iff]
      exact ⟨p, d₁, d₂, hp, h₁, h₂, rfl⟩
  · rintro (h | h | h)
    · unfold multiCoreOk at h
      rw [core2_iff] at h
      obtain ⟨p, r, hp, hm, rfl⟩ := h
      unfold multiIdentsOk at hm
      simp only [Bool.and_eq_true, decide_eq_true_eq, List.all_eq_true] at hm
      refine Or.inl ⟨p, splitComma r, hp, splitComma_ne_nil r, ?_, ?_⟩
      · exact fun g hg => identOk_iff.mp (hm.2 g hg)
      · rw [joinComma_splitComma]
    · unfold nameCoreOk at h
      rw [core2_iff] at h
      obtain ⟨p, r, hp, hr, rfl⟩ := h
      exact Or.inl ⟨p, [r], hp, by simp, by simpa using identOk_iff.mp hr, rfl⟩
    · rw [posCore_iff] at h
      obtain ⟨p, d₁, d₂, hp, h₁, h₂, rfl⟩ := h
      exact Or.inr ⟨p, d₁, d₂, hp, h₁, h₂, rfl⟩

theorem matchDollar_iff {core : List Char → Bool} {l : List Char} :
    matchDollar core l = true ↔
      core l = true ∨ ∃ l', l = l' ++ ['\n'] ∧ core l' = true := by
  unfold matchDollar
  rw [Bool.or_eq_true]
  constructor
  · rintro (h | h)
    · exact Or.inl h
    · rcases l.eq_nil_or_concat' with rfl | ⟨L, b, rfl⟩
      · simp at h
      · simp only [List.getLast?_concat, Bool.and_eq_true, decide_eq_true_eq,
          List.dropLast_concat] at h
        exact Or.inr ⟨L, by rw [h.1], h.2⟩
  · rintro (h | ⟨l', rfl, h⟩)
    · exact Or.inl h
    · refine Or.inr ?_
      simp only [List.getLast?_concat, List.dropLast_concat]
      simpa using h

/-- Success of `parse_target` as a disjunction of the three pattern matches. -/
theorem parse_target_isSome {s : String} :
    (parse_target s).isSome = true ↔
      (matchDollar multiCoreOk s.data || (matchDollar nameCoreOk s.data ||
        matchDollar posCoreOk s.data)) = true := by
  unfold parse_target
  split
  · simp_all
  · split
    · simp_all
    · split <;> simp_all

/-- C6 (amended): on the ASCII fragment, `parse_target` succeeds exactly on
the strings of the amended grammar — a nonempty newline-free path ending in
`.py`, then `::` and one or more comma-separated runs of word characters
(letters, digits or underscores, in any order — a leading digit is
accepted), or such a path followed by `:line:column` with digit runs — with
one optional trailing newline; every other string raises
`TargetParseError`. -/
theorem parse_target_grammar (s : String) (h : ∀ c ∈ s.data, c.toNat < 128) :
    (parse_target s).isSome = true ↔ SpecTargetNL s.data := by
  clear h
  rw [parse_target_isSome]
  simp only [Bool.or_eq_true, matchDollar_iff]
  unfold SpecTargetNL
  constructor
  · rintro ((h | ⟨l', hl, h⟩) | (h | ⟨l', hl, h⟩) | h | ⟨l', hl, h⟩)
    · exact Or.inl (specTarget_iff_cores.mpr (by simp [h]))
    · exact Or.inr ⟨l', hl, specTarget_iff_cores.mpr (by simp [h])⟩
    · exact Or.inl (specTarget_iff_cores.mpr (by simp [h]))
    · exact Or.inr ⟨l', hl, specTarget_iff_cores.mpr (by simp [h])⟩
    · exact Or.inl (specTarget_iff_cores.mpr (by simp [h]))
    · exact Or.inr ⟨l', hl, specTarget_iff_cores.mpr (by simp [h])⟩
  · rintro (h | ⟨l', hl, h⟩) <;> rw [specTarget_iff_cores] at h <;>
      simp only [Bool.or_eq_true] at h
    · rcases h with h | h | h
      · exact Or.inl (Or.inl h)
      · exact Or.inr (Or.inl (Or.inl h))
      · exact Or.inr (Or.inr (Or.inl h))
    · rcases h with h | h | h
      · exact Or.inl (Or.inr ⟨l', hl, h⟩)
      · exact Or.inr (Or.inl (Or.inr ⟨l', hl, h⟩))
      · exact Or.inr (Or.inr (Or.inr ⟨l', hl, h⟩))

/-- Witness for `parse_target_grammar` at the concrete target
`a.py::foo,bar`. -/
theorem parse_target_grammar_witness :
    (∀ c ∈ "a.py::foo,bar".data, c.toNat < 128) ∧
      ((parse_target "a.py::foo,bar").isSome = true ↔
        SpecTargetNL "a.py::foo,bar".data) :=
  ⟨by decide, parse_target_grammar "a.py::foo,bar" (by decide)⟩

/-- C6 (counterexample): `a.py::1` is accepted by `parse_target` (the
patterns use `\w+`, which admits a digit-initial identifier), while the
claim's grammar — identifiers beginning with a letter or underscore —
rejects it, so `parse_target` does not raise `TargetParseError` exactly
outside the claim's grammar. -/
theorem parse_target_claim_counterexample :
    (parse_target "a.py::1").isSome = true ∧
      claimTargetOk "a.py::1".data = false := by
  decide

end Parsing

namespace Pycastic

/-- C1: moving `func_a` out of `sharedDepFS` with neither `include_deps`
nor a shared file (the claimed REJECT policy) does **not** raise
`CircularDependency`: `move_symbol` auto-selects the default shared file
`utils_common.py` and proceeds, returning normally with an info message —
although its own docstring and the shared-dependency test expect
`CircularDependencyError` with the shared names. -/
theorem move_symbol_reject_no_circular :
    move_symbol_resolve sharedDepFS (.byName "utils.py" "func_a") false none =
      .ok ⟨"utils.py", ["func_a"], ["shared_helper"], [],
        some "utils_common.py",
        [.autoExtractShared "utils_common.py" ["shared_helper"]]⟩ ∧
    ∀ names, move_symbol_resolve sharedDepFS (.byName "utils.py" "func_a")
        false none ≠ .error (.circular names) := by
  constructor
  · rfl
  · intro names h
    rw [show move_symbol_resolve sharedDepFS (.byName "utils.py" "func_a")
        false none =
      .ok ⟨"utils.py", ["func_a"], ["shared_helper"], [],
        some "utils_common.py",
        [.autoExtractShared "utils_common.py" ["shared_helper"]]⟩ from rfl] at h
    exact absurd h (by simp)

/-- C2: `move_symbol` with `dry_run=True` still creates the missing
destination file (seeded with a module docstring) before its dry-run early
return, so the filesystem is **not** left unchanged. -/
theorem move_symbol_dry_run_creates_dest :
    move_symbol_dry_run_fs simpleMoveFS (.byName "utils.py" "helper")
        "dest.py" false none =
      .ok (simpleMoveFS ++
        [("dest.py", ⟨seedText "dest", some (seedModule "dest")⟩)]) ∧
    move_symbol_dry_run_fs simpleMoveFS (.byName "utils.py" "helper")
        "dest.py" false none ≠ .ok simpleMoveFS := by
  constructor
  · rfl
  · intro h
    rw [show move_symbol_dry_run_fs simpleMoveFS (.byName "utils.py" "helper")
        "dest.py" false none =
      .ok (simpleMoveFS ++
        [("dest.py", ⟨seedText "dest", some (seedModule "dest")⟩)]) from rfl] at h
    simp [simpleMoveFS] at h

end Pycastic

namespace Pycastic

/-! ### C10: `remove_definition` removes whole statement lines -/

theorem removeDefStmts_ofLines (name : String) (ls : List (List SmallStmt)) :
    removeDefStmts name (ofLines ls) =
      (ofLines (ls.filter (fun b => !(lineTargetsName name b))),
        ls.any (fun b => lineTargetsName name b)) := by
  induction ls with
  | nil => rfl
  | cons b r ih =>
      simp only [ofLines, removeDefStmts, removeDefStmt, List.filter_cons,
        List.any_cons, ih]
      by_cases h : lineTargetsName name b = true
      · simp [h]
      · simp only [Bool.not_eq_true] at h
        simp [h, ofLines]

/-- C10: for every module made of simple statement lines, `remove_definition`
drops **whole** lines: a line is removed exactly when some `Assign` in it has
`name` among its bare-`Name` targets, taking all other targets of a
multi-target assignment and all other statements sharing the line with it;
every other line survives unchanged, and the removed flag reports whether
any line (or definition) was removed. -/
theorem remove_definition_removes_whole_line (name : String)
    (ls : List (List SmallStmt)) :
    remove_definition ⟨ofLines ls⟩ name =
      (⟨ofLines (ls.filter (fun b => !(lineTargetsName name b)))⟩,
        ls.any (fun b => lineTargetsName name b)) := by
  unfold remove_definition
  rw [removeDefStmts_ofLines]

/-! ### C4: the symbol collector and nested definitions -/

theorem assignTargetDefs_names (fp mn : String) (stack : List String)
    (n : String) :
    ∀ ts : Exprs, (∃ d ∈ assignTargetDefs fp mn stack ts, d.name = n) ↔
      n ∈ assignTargetNames ts
  | .nil => by simp [assignTargetDefs, assignTargetNames]
  | .cons e r => by
      have ih := assignTargetDefs_names fp mn stack n r
      cases e <;>
        simp_all [assignTargetDefs, assignTargetNames, eq_comm]

theorem collectSmallDefs_names (fp mn : String) (stack : List String)
    (n : String) (sm : SmallStmt) :
    (∃ d ∈ collectSmallDefs fp mn stack sm, d.name = n) ↔
      stack = [] ∧ n ∈ topAssignNamesSmall sm := by
  cases sm with
  | sAssign ts v =>
      by_cases hs : stack = []
      · subst hs
        simp [collectSmallDefs, topAssignNamesSmall,
          assignTargetDefs_names fp mn [] n ts]
      · simp [collectSmallDefs, topAssignNamesSmall, hs,
          List.isEmpty_iff]
  | sAnnAssign t ann v =>
      cases t with
      | ename w =>
          by_cases hs : stack = []
          · subst hs
            simp [collectSmallDefs, topAssignNamesSmall, eq_comm]
          · simp [collectSmallDefs, topAssignNamesSmall, hs, List.isEmpty_iff]
      | eattr b f => simp [collectSmallDefs, topAssignNamesSmall]
      | eint k => simp [collectSmallDefs, topAssignNamesSmall]
      | estr s => simp [collectSmallDefs, topAssignNamesSmall]
      | ecall fn args => simp [collectSmallDefs, topAssignNamesSmall]
  | sImport xs => simp [collectSmallDefs, topAssignNamesSmall]
  | sImportFrom d mod names => simp [collectSmallDefs, topAssignNamesSmall]
  | sExpr e => simp [collectSmallDefs, topAssignNamesSmall]
  | sReturn e => simp [collectSmallDefs, topAssignNamesSmall]
  | sPass => simp [collectSmallDefs, topAssignNamesSmall]

mutual

theorem collectStmtDefs_names (fp mn n : String) :
    ∀ (stack : List String) (s : Stmt),
      ((∃ d ∈ collectStmtDefs fp mn stack s, d.name = n) ↔
        (n ∈ classFunNamesStmt s ∨ (stack = [] ∧ n ∈ topAssignNamesStmt s)))
  | stack, .sline body => by
      simp only [collectStmtDefs, classFunNamesStmt, topAssignNamesStmt,
        List.mem_flatMap, List.not_mem_nil, false_or]
      constructor
      · rintro ⟨d, hd, rfl⟩
        obtain ⟨sm, hsm, hdm⟩ := hd
        have := (collectSmallDefs_names fp mn stack d.name sm).mp ⟨d, hdm, rfl⟩
        exact ⟨this.1, sm, hsm, this.2⟩
      · rintro ⟨hs, sm, hsm, hn⟩
        obtain ⟨d, hd, hdn⟩ := (collectSmallDefs_names fp mn stack n sm).mpr ⟨hs, hn⟩
        exact ⟨d, ⟨sm, hsm, hd⟩, hdn⟩
  | stack, .sfun nm ps b => by
      have ih := collectStmtsDefs_names fp mn n (stack ++ [nm]) b
      have hne : ¬(stack ++ [nm] = []) := by simp
      constructor
      · rintro ⟨d, hd, rfl⟩
        rcases List.mem_cons.mp hd with rfl | hd
        · exact Or.inl (List.mem_cons_self _ _)
        · rcases ih.mp ⟨d, hd, rfl⟩ with h | h
          · exact Or.inl (List.mem_cons_of_mem _ h)
          · exact absurd h.1 hne
      · intro h
        rcases h with h | h
        · rcases List.mem_cons.mp h with rfl | h
          · exact ⟨_, List.mem_cons_self _ _, rfl⟩
          · obtain ⟨d, hd, hdn⟩ := ih.mpr (Or.inl h)
            exact ⟨d, List.mem_cons_of_mem _ hd, hdn⟩
        · exact absurd h.2 (List.not_mem_nil n)
  | stack, .sclass nm b => by
      have ih := collectStmtsDefs_names fp mn n (stack ++ [nm]) b
      have hne : ¬(stack ++ [nm] = []) := by simp
      constructor
      · rintro ⟨d, hd, rfl⟩
        rcases List.mem_cons.mp hd with rfl | hd
        · exact Or.inl (List.mem_cons_self _ _)
        · rcases ih.mp ⟨d, hd, rfl⟩ with h | h
          · exact Or.inl (List.mem_cons_of_mem _ h)
          · exact absurd h.1 hne
      · intro h
        rcases h with h | h
        · rcases List.mem_cons.mp h with rfl | h
          · exact ⟨_, List.mem_cons_self _ _, rfl⟩
          · obtain ⟨d, hd, hdn⟩ := ih.mpr (Or.inl h)
            exact ⟨d, List.mem_cons_of_mem _ hd, hdn⟩
        · exact absurd h.2 (List.not_mem_nil n)

theorem collectStmtsDefs_names (fp mn n : String) :
    ∀ (stack : List String) (b : Stmts),
      ((∃ d ∈ collectStmtsDefs fp mn stack b, d.name = n) ↔
        (n ∈ classFunNamesStmts b ∨ (stack = [] ∧ n ∈ topAssignNames b)))
  | stack, .nil => by
      simp [collectStmtsDefs, classFunNamesStmts, topAssignNames]
  | stack, .cons s r => by
      have ih₁ := collectStmtDefs_names fp mn n stack s
      have ih₂ := collectStmtsDefs_names fp mn n stack r
      constructor
      · rintro ⟨d, hd, rfl⟩
        rcases List.mem_append.mp hd with hd | hd
        · rcases ih₁.mp ⟨d, hd, rfl⟩ with h | h
          · exact Or.inl (List.mem_append.mpr (Or.inl h))
          · exact Or.inr ⟨h.1, List.mem_append.mpr (Or.inl h.2)⟩
        · rcases ih₂.mp ⟨d, hd, rfl⟩ with h | h
          · exact Or.inl (List.mem_append.mpr (Or.inr h))
          · exact Or.inr ⟨h.1, List.mem_append.mpr (Or.inr h.2)⟩
      · intro h
        have h' : (n ∈ classFunNamesStmt s ∨ (stack = [] ∧ n ∈ topAssignNamesStmt s)) ∨
            (n ∈ classFunNamesStmts r ∨ (stack = [] ∧ n ∈ topAssignNames r)) := by
          rcases h with h | h
          · rcases List.mem_append.mp h with h | h
            · exact Or.inl (Or.inl h)
            · exact Or.inr (Or.inl h)
          · rcases List.mem_append.mp h.2 with h₂ | h₂
            · exact Or.inl (Or.inr ⟨h.1, h₂⟩)
            · exact Or.inr (Or.inr ⟨h.1, h₂⟩)
        rcases h' with h' | h'
        · obtain ⟨d, hd, hdn⟩ := ih₁.mpr h'
          exact ⟨d, List.mem_append.mpr (Or.inl hd), hdn⟩
        · obtain ⟨d, hd, hdn⟩ := ih₂.mpr h'
          exact ⟨d, List.mem_append.mpr (Or.inr hd), hdn⟩

end

/-- C4 (amended): the symbol collector emits a class or function definition
at **every** scope depth (with a qualified name that includes the scope
stack) and restricts only `Assign`/`AnnAssign` definitions to the empty
stack; so a name has a recorded definition in a file exactly when it names
a class or function somewhere in the file — nested or not — or a
module-level bare-name assignment target, and `find_definition` may return
a nested definition. -/
theorem symbol_collector_definitions (fp mn : String) (m : Module)
    (n : String) :
    (∃ d ∈ collectStmtsDefs fp mn [] m.body, d.name = n) ↔
      (n ∈ classFunNamesStmts m.body ∨ n ∈ topAssignNames m.body) := by
  simpa using collectStmtsDefs_names fp mn n [] m.body

/-- C4 (counterexample): in a file whose only `inner` is a function nested
inside `outer`, `find_definition` returns that nested definition (qualified
name `f.outer.inner`), although the claim says a nested function is never
recorded nor returned. -/
theorem find_definition_nested_counterexample :
    find_definition (buildTable nestedDefFS) "f.py" "inner" =
      some ⟨"inner", "f.outer.inner", "f.py", "function"⟩ := by rfl

end Pycastic

namespace Pycastic

/-! ### C5: `remove_unused_imports` -/

theorem filterMapComm {α β : Type} (l : List α) (f : α → β) (p : β → Bool) :
    (l.map f).filter p = (l.filter (fun x => p (f x))).map f := by
  rw [List.filter_map]
  rfl

theorem removeUnusedSmall_spec (used : List String) (s : SmallStmt) :
    removeUnusedSmall used s =
      (specKeepSmall used s,
        (importLocalsSmall s).filter (fun n => n ∉ used)) := by
  cases s with
  | sImportFrom d mod names =>
      cases names with
      | star => rfl
      | named xs =>
          simp only [removeUnusedSmall, specKeepSmall, importLocalsSmall]
          rw [filterMapComm]
          by_cases h : (xs.filter (fun a => fromLocalName a ∈ used)).isEmpty = true <;>
            simp [h]
  | sImport xs =>
      simp only [removeUnusedSmall, specKeepSmall, importLocalsSmall]
      rw [filterMapComm]
      by_cases h : (xs.filter (fun a => plainLocalName a ∈ used)).isEmpty = true <;>
        simp [h]
  | sAssign ts v => rfl
  | sAnnAssign t ann v => rfl
  | sExpr e => rfl
  | sReturn e => rfl
  | sPass => rfl

theorem removeUnusedSmalls_spec (used : List String) (b : List SmallStmt) :
    removeUnusedSmalls used b =
      (b.filterMap (specKeepSmall used),
        (b.flatMap importLocalsSmall).filter (fun n => n ∉ used)) := by
  induction b with
  | nil => rfl
  | cons s r ih =>
      simp only [removeUnusedSmalls, removeUnusedSmall_spec, ih,
        List.filterMap_cons, List.flatMap_cons, List.filter_append]
      cases specKeepSmall used s <;> simp

mutual

theorem removeUnusedStmt_spec (used : List String) :
    ∀ s : Stmt,
      removeUnusedStmt used s =
        (specKeepStmt used s,
          (importLocalsStmt s).filter (fun n => n ∉ used))
  | .sline b => by
      simp only [removeUnusedStmt, specKeepStmt, importLocalsStmt,
        removeUnusedSmalls_spec]
      by_cases h : ((b.filterMap (specKeepSmall used)).isEmpty = true ∧
          ¬b.isEmpty = true)
      · rw [if_pos h, if_pos h]
      · rw [if_neg h, if_neg h]
  | .sfun nm ps b => by
      have ih := removeUnusedStmts_spec used b
      simp only [removeUnusedStmt, specKeepStmt, importLocalsStmt, ih]
  | .sclass nm b => by
      have ih := removeUnusedStmts_spec used b
      simp only [removeUnusedStmt, specKeepStmt, importLocalsStmt, ih]

theorem removeUnusedStmts_spec (used : List String) :
    ∀ b : Stmts,
      removeUnusedStmts used b =
        (specKeepStmts used b,
          (importLocalsStmts b).filter (fun n => n ∉ used))
  | .nil => rfl
  | .cons s r => by
      have ih₁ := removeUnusedStmt_spec used s
      have ih₂ := removeUnusedStmts_spec used r
      simp only [removeUnusedStmts, specKeepStmts, importLocalsStmts, ih₁, ih₂,
        List.filter_append]

end

/-- C5 (amended): `remove_unused_imports` removes exactly those imported
names whose local binding — the alias if present, else the **first** dotted
component of the target for plain imports (`name.split(".")[0]`), else
the imported name for from-imports — never appears as a `Name` outside of
the file's import statements; star imports are preserved verbatim and an
entire import statement is removed when none of its names remain. -/
theorem remove_unused_imports_spec (m : Module) :
    remove_unused_imports m =
      (⟨specKeepStmts (usedNames m) m.body⟩,
        (importLocalsStmts m.body).filter (fun n => n ∉ usedNames m)) := by
  simp only [remove_unused_imports]
  rw [removeUnusedStmts_spec]

/-- C5 (counterexample): on `import os.path` with `os` used below, the code
keeps the import and removes nothing — the local binding is the **first**
dotted component `os`, which is used.  Under the claim's reading (local
binding = the **last** dotted component, `path`, which never appears as a
`Name` outside imports) the import would have to be removed. -/
theorem remove_unused_imports_first_component_counterexample :
    remove_unused_imports osPathModule = (osPathModule, []) ∧
      claimPlainLocalName ⟨["os", "path"], none⟩ = "path" ∧
      ¬"path" ∈ usedNames osPathModule := by
  refine ⟨rfl, rfl, by decide⟩

end Pycastic

namespace Pycastic

/-! ### C7: `rename_in_source` -/

mutual

theorem renameExpr_spec (old new : String) (h : old ≠ new) :
    ∀ e : Expr, renameExpr old new e = (amendRenameExpr old new e, occExpr old e)
  | .ename v => by
      simp only [renameExpr, amendRenameExpr, occExpr, subst, occ]
      by_cases hv : v = old <;> simp [hv]
  | .eattr b f => by
      have ih := renameExpr_spec old new h b
      simp only [renameExpr, amendRenameExpr, occExpr, ih, subst, occ]
      by_cases hf : f = old <;> simp [hf]
  | .eint n => rfl
  | .estr s => rfl
  | .ecall fn args => by
      have ih₁ := renameExpr_spec old new h fn
      have ih₂ := renameArgs_spec old new h args
      simp only [renameExpr, amendRenameExpr, occExpr, ih₁, ih₂]

theorem renameExprs_spec (old new : String) (h : old ≠ new) :
    ∀ es : Exprs,
      renameExprs old new es = (amendRenameExprs old new es, occExprs old es)
  | .nil => rfl
  | .cons e r => by
      have ih₁ := renameExpr_spec old new h e
      have ih₂ := renameExprs_spec old new h r
      simp only [renameExprs, amendRenameExprs, occExprs, ih₁, ih₂]

theorem renameArgs_spec (old new : String) (h : old ≠ new) :
    ∀ a : Args, renameArgs old new a = (amendRenameArgs old new a, occArgs old a)
  | .nil => rfl
  | .cons kw v r => by
      have ih₁ := renameExpr_spec old new h v
      have ih₂ := renameArgs_spec old new h r
      have hne : ¬(new = old) := fun e => h e.symm
      cases kw with
      | none => simp [renameArgs, amendRenameArgs, occArgs, ih₁, ih₂]
      | some k =>
          by_cases hk : k = old
          · simp [renameArgs, amendRenameArgs, occArgs, ih₁, ih₂, hk, subst,
              occ, hne]
          · simp [renameArgs, amendRenameArgs, occArgs, ih₁, ih₂, hk, subst, occ]

end

theorem renameOptExpr_spec (old new : String) (h : old ≠ new) (v : Option Expr) :
    renameOptExpr old new v =
      (v.map (amendRenameExpr old new), occOptExpr old v) := by
  cases v with
  | none => rfl
  | some e => simp [renameOptExpr, occOptExpr, renameExpr_spec old new h e]

theorem renameFromAliases_spec (old new : String) (xs : List FromAlias) :
    renameFromAliases old new xs =
      (xs.map (amendRenameFromAlias old new),
        (xs.map (fun a => occAsname old a.asname)).sum) := by
  induction xs with
  | nil => rfl
  | cons a r ih =>
      obtain ⟨nv, asn⟩ := a
      simp only [renameFromAliases, renameFromAlias, ih, List.map_cons,
        List.sum_cons, amendRenameFromAlias, occAsname]
      cases asn with
      | none => simp
      | some x =>
          by_cases hx : x = old <;> simp [hx, subst, occ]

theorem renamePlainAliases_spec (old new : String) (xs : List PlainAlias) :
    renamePlainAliases old new xs =
      (xs.map (amendRenamePlainAlias old new),
        (xs.map (fun a => occAsname old a.asname)).sum) := by
  induction xs with
  | nil => rfl
  | cons a r ih =>
      obtain ⟨pp, asn⟩ := a
      simp only [renamePlainAliases, renamePlainAlias, ih, List.map_cons,
        List.sum_cons, amendRenamePlainAlias, occAsname]
      cases asn with
      | none => simp
      | some x =>
          by_cases hx : x = old <;> simp [hx, subst, occ]

theorem renameSmallStmt_spec (old new : String) (h : old ≠ new) (s : SmallStmt) :
    renameSmallStmt old new s = (amendRenameSmall old new s, occSmall old s) := by
  cases s with
  | sAssign ts v =>
      simp [renameSmallStmt, amendRenameSmall, occSmall,
        renameExprs_spec old new h ts, renameExpr_spec old new h v]
  | sAnnAssign t ann v =>
      simp [renameSmallStmt, amendRenameSmall, occSmall,
        renameExpr_spec old new h t, renameExpr_spec old new h ann,
        renameOptExpr_spec old new h v]
  | sImport names =>
      simp [renameSmallStmt, amendRenameSmall, occSmall,
        renamePlainAliases_spec old new names]
  | sImportFrom d m names =>
      cases names with
      | star => rfl
      | named xs =>
          simp [renameSmallStmt, amendRenameSmall, occSmall,
            renameFromAliases_spec old new xs]
  | sExpr e =>
      simp [renameSmallStmt, amendRenameSmall, occSmall,
        renameExpr_spec old new h e]
  | sReturn e =>
      simp [renameSmallStmt, amendRenameSmall, occSmall,
        renameOptExpr_spec old new h e]
  | sPass => rfl

theorem renameSmallStmts_spec (old new : String) (h : old ≠ new)
    (b : List SmallStmt) :
    renameSmallStmts old new b =
      (b.map (amendRenameSmall old new), (b.map (occSmall old)).sum) := by
  induction b with
  | nil => rfl
  | cons s r ih =>
      simp [renameSmallStmts, renameSmallStmt_spec old new h s, ih]

theorem renameParams_spec (old new : String) (h : old ≠ new)
    (ps : List String) :
    renameParams old new ps =
      (ps.map (subst old new), (ps.map (occ old)).sum) := by
  induction ps with
  | nil => rfl
  | cons x r ih =>
      simp only [renameParams, ih, List.map_cons, List.sum_cons, subst, occ]
      by_cases hx : x = old
      · simp [hx, Nat.add_comm]
      · simp [hx]

mutual

theorem renameStmt_spec (old new : String) (h : old ≠ new) :
    ∀ s : Stmt, renameStmt old new s = (amendRenameStmt old new s, occStmt old s)
  | .sline body => by
      simp [renameStmt, amendRenameStmt, occStmt,
        renameSmallStmts_spec old new h body]
  | .sfun nm ps body => by
      have ih := renameStmts_spec old new h body
      have hne : ¬(new = old) := fun e => h e.symm
      simp only [renameStmt, amendRenameStmt, occStmt, ih,
        renameParams_spec old new h ps, subst, occ]
      by_cases hn : nm = old
      · simp [hn, hne]
      · simp [hn]
  | .sclass nm body => by
      have ih := renameStmts_spec old new h body
      have hne : ¬(new = old) := fun e => h e.symm
      simp only [renameStmt, amendRenameStmt, occStmt, ih, subst, occ]
      by_cases hn : nm = old
      · simp [hn, hne]
      · simp [hn]

theorem renameStmts_spec (old new : String) (h : old ≠ new) :
    ∀ b : Stmts,
      renameStmts old new b = (amendRenameStmts old new b, occStmts old b)
  | .nil => rfl
  | .cons s r => by
      have ih₁ := renameStmt_spec old new h s
      have ih₂ := renameStmts_spec old new h r
      simp [renameStmts, amendRenameStmts, occStmts, ih₁, ih₂]

end

/-- C7 (amended): for `old ≠ new`, `rename_in_source` renames every `Name`
occurrence equal to `old` — keyword-argument labels, `as`-names of import
aliases, definition names, parameters, assignment targets, attribute names
and plain uses — **except** Names inside the dotted module part of
an import and except the imported names of import aliases (plain and
from-import alike, guarded by `_in_import_alias_name`), and returns the
number of renamed occurrences. -/
theorem rename_in_source_spec (m : Module) (old new : String)
    (h : old ≠ new) :
    rename_in_source m old new =
      (⟨amendRenameStmts old new m.body⟩, occStmts old m.body) := by
  unfold rename_in_source
  rw [renameStmts_spec old new h]

/-- Witness for `rename_in_source_spec` on the from-import module. -/
theorem rename_in_source_spec_witness :
    "old" ≠ "new" ∧
      rename_in_source fromImportUseModule "old" "new" =
        (⟨amendRenameStmts "old" "new" fromImportUseModule.body⟩,
          occStmts "old" fromImportUseModule.body) :=
  ⟨by decide, rename_in_source_spec fromImportUseModule "old" "new" (by decide)⟩

/-- C7 (counterexample): on `from m import old` followed by a use of `old`,
renaming `old → new` leaves the imported name as `old` (only the use is
renamed, count 1), while the claim — which says the imported names of
from-import statements are renamed — predicts both are renamed. -/
theorem rename_in_source_import_name_counterexample :
    rename_in_source fromImportUseModule "old" "new" =
      (⟨.cons (.sline [.sImportFrom 0 ["m"] (.named [⟨"old", none⟩])])
        (.cons (.sline [.sExpr (.ename "new")]) .nil)⟩, 1) ∧
      (rename_in_source fromImportUseModule "old" "new").1 ≠
        fromImportUseRenamedBoth := by
  decide

end Pycastic

namespace Pycastic

/-! ### C8: termination of `resolve_move_dependencies` -/

theorem dictGet_isSome {α : Type} (l : List (String × α)) (k : String) :
    (dictGet l k).isSome = true ↔ k ∈ l.map Prod.fst := by
  unfold dictGet
  cases hf : l.find? (fun e => e.1 = k) with
  | none =>
      simp only [Option.map_none', Option.isSome_none, Bool.false_eq_true,
        false_iff]
      intro hk
      obtain ⟨e, he, rfl⟩ := List.mem_map.mp hk
      have := List.find?_eq_none.mp hf e he
      simp at this
  | some e =>
      simp only [Option.map_some', Option.isSome_some, true_iff]
      have h₁ := List.find?_some hf
      have h₂ := List.mem_of_find?_eq_some hf
      simp only [decide_eq_true_eq] at h₁
      exact List.mem_map.mpr ⟨e, h₂, h₁⟩

theorem analyze_symbol_isSome (defs : List (String × DefNode))
    (imps : List (String × ImportDependency)) (sym : String) :
    (analyze_symbol defs imps sym).isSome = (dictGet defs sym).isSome := by
  unfold analyze_symbol
  cases dictGet defs sym <;> simp

theorem analyze_symbol_deps_defined (defs : List (String × DefNode))
    (imps : List (String × ImportDependency)) (sym : String)
    (info : SymbolDeps) (h : analyze_symbol defs imps sym = some info) :
    ∀ d ∈ info.internalDeps, (dictGet defs d).isSome = true := by
  unfold analyze_symbol at h
  cases hg : dictGet defs sym with
  | none => rw [hg] at h; exact absurd h (by simp)
  | some node =>
      rw [hg] at h
      simp only [Option.some.injEq] at h
      subst h
      intro d hd
      simp only [List.mem_filter, decide_eq_true_eq] at hd
      simp [hd.2.2.1]

theorem nodup_subset_length_le {l k : List String} (h : l.Nodup) (hs : l ⊆ k) :
    l.length ≤ k.length := by
  calc l.length = l.toFinset.card := (List.toFinset_card_of_nodup h).symm
    _ ≤ k.toFinset.card := Finset.card_le_card (fun x hx => by
        rw [List.mem_toFinset] at *
        exact hs hx)
    _ ≤ k.length := List.toFinset_card_le k

theorem processDeps_spec (defs : List (String × DefNode))
    (imps : List (String × ImportDependency)) (inc : Bool) :
    ∀ (deps : List String) (st : MoveState) (changed : Bool),
      (∀ d ∈ deps, (dictGet defs d).isSome = true) →
      st.moveSet.Nodup →
      (∀ s ∈ st.moveSet, s ∈ defs.map Prod.fst) →
      ∃ st' ch',
        processDeps defs imps inc deps st changed = .ok (st', ch') ∧
        st'.moveSet.Nodup ∧
        (∀ s ∈ st'.moveSet, s ∈ defs.map Prod.fst) ∧
        (∀ s ∈ st.moveSet, s ∈ st'.moveSet) ∧
        st.moveSet.length ≤ st'.moveSet.length ∧
        (ch' = true → changed = true ∨ st.moveSet.length < st'.moveSet.length) ∧
        (changed = true → ch' = true) := by
  intro deps
  induction deps with
  | nil =>
      intro st changed _ hnd hsub
      exact ⟨st, changed, rfl, hnd, hsub, fun s hs => hs, le_refl _,
        fun hc => Or.inl hc, fun hc => hc⟩
  | cons d rest ih =>
      intro st changed hdef hnd hsub
      by_cases hdm : d ∈ st.moveSet
      · obtain ⟨st', ch', heq, h₁, h₂, h₃, h₄, h₅, h₆⟩ :=
          ih st changed (fun x hx => hdef x (List.mem_cons_of_mem _ hx)) hnd hsub
        exact ⟨st', ch', by simp [processDeps, hdm, heq], h₁, h₂, h₃, h₄, h₅, h₆⟩
      · have hds : (analyze_symbol defs imps d).isSome = true := by
          rw [analyze_symbol_isSome]
          exact hdef d (List.mem_cons_self _ _)
        cases hai : analyze_symbol defs imps d with
        | none => rw [hai] at hds; exact absurd hds (by simp)
        | some info =>
            by_cases hbr :
                ((info.internalUsages.filter
                  (fun u => u ∉ st.moveSet)).isEmpty = true ∨ inc = true)
            · have hnd₂ : (st.moveSet ++ [d]).Nodup := by
                simp [List.nodup_append, hnd, hdm]
              have hsub₂ : ∀ s ∈ st.moveSet ++ [d], s ∈ defs.map Prod.fst := by
                intro s hs
                rcases List.mem_append.mp hs with hs | hs
                · exact hsub s hs
                · rw [List.mem_singleton] at hs
                  subst hs
                  exact (dictGet_isSome defs s).mp (hdef s (List.mem_cons_self _ _))
              obtain ⟨st', ch', heq, h₁, h₂, h₃, h₄, h₅, h₆⟩ :=
                ih { st with moveSet := st.moveSet ++ [d] } true
                  (fun x hx => hdef x (List.mem_cons_of_mem _ hx)) hnd₂ hsub₂
              refine ⟨st', ch', ?_, h₁, h₂, ?_, ?_, ?_, ?_⟩
              · simp only [processDeps, hai]
                rw [if_neg hdm, if_pos hbr]
                exact heq
              · intro s hs
                exact h₃ s (List.mem_append.mpr (Or.inl hs))
              · simp only [List.length_append, List.length_singleton] at h₄
                omega
              · intro _
                right
                have := h₄
                simp only [List.length_append, List.length_singleton] at this
                omega
              · intro _
                exact h₆ rfl
            · obtain ⟨st', ch', heq, h₁, h₂, h₃, h₄, h₅, h₆⟩ :=
                ih { st with sharedDeps := setInsert d st.sharedDeps } changed
                  (fun x hx => hdef x (List.mem_cons_of_mem _ hx)) hnd hsub
              refine ⟨st', ch', ?_, h₁, h₂, h₃, h₄, h₅, h₆⟩
              simp only [processDeps, hai]
              rw [if_neg hdm, if_neg hbr]
              exact heq

theorem processSymbols_spec (defs : List (String × DefNode))
    (imps : List (String × ImportDependency)) (inc : Bool) :
    ∀ (syms : List String) (st : MoveState) (changed : Bool),
      (∀ s ∈ syms, (dictGet defs s).isSome = true) →
      st.moveSet.Nodup →
      (∀ s ∈ st.moveSet, s ∈ defs.map Prod.fst) →
      ∃ st' ch',
        processSymbols defs imps inc syms st changed = .ok (st', ch') ∧
        st'.moveSet.Nodup ∧
        (∀ s ∈ st'.moveSet, s ∈ defs.map Prod.fst) ∧
        (∀ s ∈ st.moveSet, s ∈ st'.moveSet) ∧
        st.moveSet.length ≤ st'.moveSet.length ∧
        (ch' = true → changed = true ∨ st.moveSet.length < st'.moveSet.length) ∧
        (changed = true → ch' = true) := by
  intro syms
  induction syms with
  | nil =>
      intro st changed _ hnd hsub
      exact ⟨st, changed, rfl, hnd, hsub, fun s hs => hs, le_refl _,
        fun hc => Or.inl hc, fun hc => hc⟩
  | cons s rest ih =>
      intro st changed hdef hnd hsub
      have hss : (analyze_symbol defs imps s).isSome = true := by
        rw [analyze_symbol_isSome]
        exact hdef s (List.mem_cons_self _ _)
      cases hai : analyze_symbol defs imps s with
      | none => rw [hai] at hss; exact absurd hss (by simp)
      | some info =>
          obtain ⟨stD, chD, heqD, hD₁, hD₂, hD₃, hD₄, hD₅, hD₆⟩ :=
            processDeps_spec defs imps inc info.internalDeps
              { st with
                requiredImports :=
                  info.requiredImports.foldl (fun acc i => riInsert i acc)
                    st.requiredImports }
              changed (analyze_symbol_deps_defined defs imps s info hai) hnd hsub
          have hmv : ({ st with
              requiredImports :=
                info.requiredImports.foldl (fun acc i => riInsert i acc)
                  st.requiredImports } : MoveState).moveSet = st.moveSet := rfl
          rw [hmv] at hD₃ hD₄ hD₅
          obtain ⟨st', ch', heq, h₁, h₂, h₃, h₄, h₅, h₆⟩ :=
            ih stD chD (fun x hx => hdef x (List.mem_cons_of_mem _ hx)) hD₁ hD₂
          refine ⟨st', ch', ?_, h₁, h₂, ?_, ?_, ?_, ?_⟩
          · simp only [processSymbols, hai, heqD]
            exact heq
          · intro x hx
            exact h₃ x (hD₃ x hx)
          · omega
          · intro hc
            rcases h₅ hc with hc | hc
            · rcases hD₅ hc with hc' | hc'
              · exact Or.inl hc'
              · exact Or.inr (by omega)
            · exact Or.inr (by omega)
          · intro hc
            exact h₆ (hD₆ hc)

theorem movePass_spec (defs : List (String × DefNode))
    (imps : List (String × ImportDependency)) (inc : Bool) (st : MoveState)
    (hnd : st.moveSet.Nodup)
    (hsub : ∀ s ∈ st.moveSet, s ∈ defs.map Prod.fst) :
    ∃ st' ch,
      movePass defs imps inc st = .ok (st', ch) ∧
      st'.moveSet.Nodup ∧
      (∀ s ∈ st'.moveSet, s ∈ defs.map Prod.fst) ∧
      (∀ s ∈ st.moveSet, s ∈ st'.moveSet) ∧
      st.moveSet.length ≤ st'.moveSet.length ∧
      (ch = true → st.moveSet.length < st'.moveSet.length) := by
  obtain ⟨st', ch, heq, h₁, h₂, h₃, h₄, h₅, -⟩ :=
    processSymbols_spec defs imps inc st.moveSet st false
      (fun s hs => (dictGet_isSome defs s).mpr (hsub s hs)) hnd hsub
  refine ⟨st', ch, heq, h₁, h₂, h₃, h₄, ?_⟩
  intro hc
  rcases h₅ hc with hc' | hc'
  · exact absurd hc' (by simp)
  · exact hc'

theorem moveLoop_stable (defs : List (String × DefNode))
    (imps : List (String × ImportDependency)) (inc : Bool) :
    ∀ (k : Nat) (st : MoveState), st.moveSet.Nodup →
      (∀ s ∈ st.moveSet, s ∈ defs.map Prod.fst) →
      defs.length - st.moveSet.length ≤ k →
      ∃ stf, ∀ n, k < n → moveLoop defs imps inc n st = .ok stf := by
  intro k
  induction k with
  | zero =>
      intro st hnd hsub hk
      obtain ⟨st', ch, heq, h₁, h₂, -, h₄, h₅⟩ :=
        movePass_spec defs imps inc st hnd hsub
      have hbound : st'.moveSet.length ≤ defs.length := by
        have := nodup_subset_length_le h₁ (fun s hs => h₂ s hs)
        simpa using this
      cases ch with
      | true =>
          have := h₅ rfl
          omega
      | false =>
          refine ⟨st', ?_⟩
          intro n hn
          cases n with
          | zero => omega
          | succ n' => simp [moveLoop, heq]
  | succ k ih =>
      intro st hnd hsub hk
      obtain ⟨st', ch, heq, h₁, h₂, -, h₄, h₅⟩ :=
        movePass_spec defs imps inc st hnd hsub
      cases ch with
      | false =>
          refine ⟨st', ?_⟩
          intro n hn
          cases n with
          | zero => omega
          | succ n' => simp [moveLoop, heq]
      | true =>
          have hlt := h₅ rfl
          obtain ⟨stf, hstf⟩ := ih st' h₁ h₂ (by omega)
          refine ⟨stf, ?_⟩
          intro n hn
          cases n with
          | zero => omega
          | succ n' =>
              have : moveLoop defs imps inc (n' + 1) st =
                  moveLoop defs imps inc n' st' := by
                simp [moveLoop, heq]
              rw [this]
              exact hstf n' (by omega)

/-- C8: when every seed symbol is a recorded top-level definition of the
file, the fixpoint loop of `resolve_move_dependencies` terminates: a pass
that reports a change strictly enlarges `move_set`, which stays inside the
file's finite set of top-level definition names, and the loop therefore
reaches its fixpoint within `#definitions + 1` passes — the fueled loop
returns the same answer for every larger fuel, and
`resolve_move_dependencies` returns normally. -/
theorem resolve_move_terminates (m : Module) (seed : List String)
    (inc : Bool)
    (hseed : ∀ s ∈ seed, (dictGet (depDefinitions m) s).isSome = true) :
    (∀ st st' ch, st.moveSet.Nodup →
      (∀ s ∈ st.moveSet, s ∈ (depDefinitions m).map Prod.fst) →
      movePass (depDefinitions m) (depImports m) inc st = .ok (st', ch) →
      ((∀ s ∈ st.moveSet, s ∈ st'.moveSet) ∧ st'.moveSet.Nodup ∧
        (∀ s ∈ st'.moveSet, s ∈ (depDefinitions m).map Prod.fst) ∧
        (ch = true → st.moveSet.length < st'.moveSet.length))) ∧
    (∃ stf, (∀ n, (depDefinitions m).length < n →
        moveLoop (depDefinitions m) (depImports m) inc n
          ⟨seed.dedup, [], []⟩ = .ok stf) ∧
      resolve_move_dependencies m seed inc =
        .ok (stf.moveSet, stf.sharedDeps, stf.requiredImports.map (fun e => e.2))) := by
  constructor
  · intro st st' ch hnd hsub heq
    obtain ⟨st₂, ch₂, heq₂, h₁, h₂, h₃, -, h₅⟩ :=
      movePass_spec (depDefinitions m) (depImports m) inc st hnd hsub
    rw [heq] at heq₂
    simp only [Except.ok.injEq, Prod.mk.injEq] at heq₂
    obtain ⟨hst, hch⟩ := heq₂
    subst hst
    subst hch
    exact ⟨h₃, h₁, h₂, h₅⟩
  · have hnd₀ : (seed.dedup).Nodup := seed.nodup_dedup
    have hsub₀ : ∀ s ∈ seed.dedup, s ∈ (depDefinitions m).map Prod.fst := by
      intro s hs
      exact (dictGet_isSome _ s).mp (hseed s (List.mem_dedup.mp hs))
    obtain ⟨stf, hstf⟩ :=
      moveLoop_stable (depDefinitions m) (depImports m) inc
        (depDefinitions m).length ⟨seed.dedup, [], []⟩ hnd₀ hsub₀ (by omega)
    refine ⟨stf, hstf, ?_⟩
    simp only [resolve_move_dependencies]
    rw [hstf ((depDefinitions m).length + 1) (by omega)]

/-- Witness for `resolve_move_terminates` on the shared-dependency
module with seed `func_a`. -/
theorem resolve_move_terminates_witness :
    (∀ s ∈ ["func_a"],
      (dictGet (depDefinitions sharedDepModule) s).isSome = true) ∧
    ((∀ st st' ch, st.moveSet.Nodup →
      (∀ s ∈ st.moveSet, s ∈ (depDefinitions sharedDepModule).map Prod.fst) →
      movePass (depDefinitions sharedDepModule) (depImports sharedDepModule)
          false st = .ok (st', ch) →
      ((∀ s ∈ st.moveSet, s ∈ st'.moveSet) ∧ st'.moveSet.Nodup ∧
        (∀ s ∈ st'.moveSet, s ∈ (depDefinitions sharedDepModule).map Prod.fst) ∧
        (ch = true → st.moveSet.length < st'.moveSet.length))) ∧
    (∃ stf, (∀ n, (depDefinitions sharedDepModule).length < n →
        moveLoop (depDefinitions sharedDepModule) (depImports sharedDepModule)
          false n ⟨["func_a"].dedup, [], []⟩ = .ok stf) ∧
      resolve_move_dependencies sharedDepModule ["func_a"] false =
        .ok (stf.moveSet, stf.sharedDeps,
          stf.requiredImports.map (fun e => e.2)))) :=
  ⟨by decide,
    resolve_move_terminates sharedDepModule ["func_a"] false (by decide)⟩

end Pycastic

namespace Pycastic

/-! ## C3: error raised when the target file fails to parse -/

/-- In a project whose paths are duplicate-free, two entries sharing a path
are the same entry. -/
theorem nodupKeys_eq {α : Type} :
    ∀ (fs : List (String × α)), (fs.map Prod.fst).Nodup →
      ∀ (p : String) (a b : α), (p, a) ∈ fs → (p, b) ∈ fs → a = b
  | [], _, _, _, _, ha, _ => absurd ha (List.not_mem_nil _)
  | (q, c) :: rest, hnd, p, a, b, ha, hb => by
      simp only [List.map_cons, List.nodup_cons] at hnd
      obtain ⟨hq, hnd'⟩ := hnd
      rcases List.mem_cons.mp ha with ha | ha <;>
        rcases List.mem_cons.mp hb with hb | hb
      · rw [Prod.mk.injEq] at ha hb
        rw [ha.2, hb.2]
      · exfalso
        apply hq
        rw [Prod.mk.injEq] at ha
        exact ha.1 ▸ List.mem_map_of_mem Prod.fst hb
      · exfalso
        apply hq
        rw [Prod.mk.injEq] at hb
        exact hb.1 ▸ List.mem_map_of_mem Prod.fst ha
      · exact nodupKeys_eq rest hnd' p a b ha hb

/-- A file that fails to parse is absent from the symbol table: with
duplicate-free paths, `tableFind` on its path yields nothing. -/
theorem tableFind_unparseable (fs : FS) (p : String) (pf : PyFile)
    (hnd : (fs.map Prod.fst).Nodup)
    (hlk : lookupFS fs p = some pf)
    (htree : pf.tree = none) :
    tableFind (buildTable fs) p = none := by
  cases hf : (buildTable fs).find? (fun e => e.1 = p) with
  | none => simp [tableFind, hf]
  | some e =>
      exfalso
      have hmem := List.mem_of_find?_eq_some hf
      have hp : e.1 = p := by
        have := List.find?_some hf
        simpa using this
      simp only [buildTable, List.mem_filterMap] at hmem
      obtain ⟨⟨q, pf'⟩, hq, hcol⟩ := hmem
      cases hcs : collect_file_symbols q pf' with
      | none => rw [hcs] at hcol; exact absurd hcol (by simp)
      | some s =>
          rw [hcs] at hcol
          have hcol' : (q, s) = e := by simpa using hcol
          have hqp : q = p := by rw [← hcol'] at hp; exact hp
          subst hqp
          have hmemfs : (q, pf') ∈ fs := List.mem_of_mem_filter hq
          have hpfmem : (q, pf) ∈ fs := by
            cases hf2 : fs.find? (fun e => e.1 = q) with
            | none => simp [lookupFS, hf2] at hlk
            | some e2 =>
                have hm2 := List.mem_of_find?_eq_some hf2
                have hp2 : e2.1 = q := by
                  have := List.find?_some hf2
                  simpa using this
                have hlk' : e2.2 = pf := by
                  simp only [lookupFS, hf2] at hlk
                  simpa using hlk
                have he2 : e2 = (q, pf) := by
                  obtain ⟨x, y⟩ := e2
                  simp only at hp2 hlk'
                  rw [hp2, hlk']
                rw [he2] at hm2
                exact hm2
          have hpp : pf' = pf := nodupKeys_eq fs hnd q pf' pf hmemfs hpfmem
          rw [hpp] at hcs
          simp [collect_file_symbols, htree] at hcs

/-- C3: when the file containing the target symbol exists but fails to
parse, `move_symbol` raises `RefactoringError` for by-name and by-position
targets alike, and `rename_symbol` raises `RefactoringError` for a
by-position target; but for a by-name target `rename_symbol` raises
`SymbolNotFoundError` instead — the unparseable file is silently skipped
when the symbol table is built, so the definition lookup fails before any
parse error can surface. -/
theorem parse_failure_error_paths (fs : FS) (p : String) (pf : PyFile)
    (n newName : String) (line col : Nat) (dr inc : Bool)
    (sf : Option String)
    (hnd : (fs.map Prod.fst).Nodup)
    (hlk : lookupFS fs p = some pf)
    (htree : pf.tree = none) :
    rename_symbol fs (.byName p n) newName dr = .error .symbolNotFound ∧
    rename_symbol fs (.byPosition p line col) newName dr =
      .error .refactoring ∧
    move_symbol_resolve fs (.byName p n) inc sf = .error .refactoring ∧
    move_symbol_resolve fs (.byPosition p line col) inc sf =
      .error .refactoring := by
  have hpos : _find_symbol_name_at_position pf line col =
      .error .refactoring := by
    unfold _find_symbol_name_at_position
    cases hoff : offsetAt pf.text line col with
    | none => rfl
    | some off => rw [htree]
  refine ⟨?_, ?_, ?_, ?_⟩
  · have htf := tableFind_unparseable fs p pf hnd hlk htree
    have hfd : find_definition (buildTable fs) p n = none := by
      unfold find_definition
      rw [htf]
    simp only [rename_symbol, _resolve_target, pure, Except.pure, bind,
      Except.bind, hlk, hfd]
    simp [hfd]
  · simp only [rename_symbol, _resolve_target, bind, Except.bind, hlk,
      hpos]
    rfl
  · simp only [move_symbol_resolve, _resolve_target, pure, Except.pure,
      bind, Except.bind, hlk, htree]
    rfl
  · simp only [move_symbol_resolve, _resolve_target, bind, Except.bind,
      hlk, hpos]
    rfl

/-- Witness for `parse_failure_error_paths` on the one-file project whose
file does not parse. -/
theorem parse_failure_error_paths_witness :
    ((brokenFS.map Prod.fst).Nodup ∧
      lookupFS brokenFS "bad.py" = some ⟨"def broken(:\n", none⟩ ∧
      (⟨"def broken(:\n", none⟩ : PyFile).tree = none) ∧
    (rename_symbol brokenFS (.byName "bad.py" "broken") "fixed" false =
        .error .symbolNotFound ∧
      rename_symbol brokenFS (.byPosition "bad.py" 1 5) "fixed" false =
        .error .refactoring ∧
      move_symbol_resolve brokenFS (.byName "bad.py" "broken") false none =
        .error .refactoring ∧
      move_symbol_resolve brokenFS (.byPosition "bad.py" 1 5) false none =
        .error .refactoring) :=
  ⟨⟨by decide, rfl, rfl⟩,
    parse_failure_error_paths brokenFS "bad.py" ⟨"def broken(:\n", none⟩
      "broken" "fixed" 1 5 false false none (by decide) rfl rfl⟩

/-- The claim's counterexample, concretely: renaming a by-name target in an
unparseable file raises `SymbolNotFoundError`, which is not the
`RefactoringError` the claim requires. -/
theorem rename_unparseable_by_name_counterexample :
    rename_symbol brokenFS (.byName "bad.py" "broken") "fixed" false =
      .error .symbolNotFound ∧
    (PyErr.symbolNotFound ≠ PyErr.refactoring) := by
  constructor
  · rfl
  · decide

end Pycastic

namespace Pycastic

/-! ## C9: the rename round trip -/

/-- C9 (counterexample): on a project already containing the new name, the
round trip `A → B` then `B → A` succeeds but does not restore the project:
the pre-existing use of `B` is rewritten to `A` by the second pass. -/
theorem rename_inverse_counterexample :
    renameTwice invCexFS "f.py" "A" "B" = .ok invCexResultFS ∧
      invCexResultFS ≠ invCexFS := by
  constructor
  · rfl
  · decide

end Pycastic

namespace Pycastic

/-! ### Involution of the rename transformer under a fresh new name

When `B` occurs at no renameable position of the tree, renaming `A → B`
and then `B → A` is the identity, and the second pass finds exactly as
many occurrences of `B` as the first pass renamed occurrences of `A`. -/

theorem subst_occ_inverse (A B v : String) (h : v ≠ B) :
    subst B A (subst A B v) = v ∧ occ B (subst A B v) = occ A v := by
  unfold subst occ
  by_cases hv : v = A
  · simp [hv]
  · simp [hv, h]

mutual

theorem amendExpr_inv (A B : String) :
    ∀ e : Expr, occExpr B e = 0 →
      amendRenameExpr B A (amendRenameExpr A B e) = e ∧
        occExpr B (amendRenameExpr A B e) = occExpr A e
  | .ename v, h => by
      have hv : v ≠ B := by
        intro hv
        rw [hv] at h
        simp [occExpr, occ] at h
      obtain ⟨h₁, h₂⟩ := subst_occ_inverse A B v hv
      exact ⟨by simp [amendRenameExpr, h₁],
        by simp [occExpr, amendRenameExpr, h₂]⟩
  | .eattr b f, h => by
      simp only [occExpr, occ] at h
      by_cases hf : f = B
      · rw [if_pos hf] at h
        exact absurd h (by omega)
      · rw [if_neg hf] at h
        obtain ⟨ih₁, ih₂⟩ := amendExpr_inv A B b (by omega)
        obtain ⟨hf₁, hf₂⟩ := subst_occ_inverse A B f hf
        exact ⟨by simp [amendRenameExpr, ih₁, hf₁],
          by simp [occExpr, amendRenameExpr, ih₂, hf₂]⟩
  | .eint n, _ => ⟨rfl, rfl⟩
  | .estr s, _ => ⟨rfl, rfl⟩
  | .ecall fn args, h => by
      simp only [occExpr] at h
      obtain ⟨ih₁, ih₂⟩ := amendExpr_inv A B fn (by omega)
      obtain ⟨jh₁, jh₂⟩ := amendArgs_inv A B args (by omega)
      exact ⟨by simp [amendRenameExpr, ih₁, jh₁],
        by simp [occExpr, amendRenameExpr, ih₂, jh₂]⟩

theorem amendExprs_inv (A B : String) :
    ∀ es : Exprs, occExprs B es = 0 →
      amendRenameExprs B A (amendRenameExprs A B es) = es ∧
        occExprs B (amendRenameExprs A B es) = occExprs A es
  | .nil, _ => ⟨rfl, rfl⟩
  | .cons e r, h => by
      simp only [occExprs] at h
      obtain ⟨ih₁, ih₂⟩ := amendExpr_inv A B e (by omega)
      obtain ⟨jh₁, jh₂⟩ := amendExprs_inv A B r (by omega)
      exact ⟨by simp [amendRenameExprs, ih₁, jh₁],
        by simp [occExprs, amendRenameExprs, ih₂, jh₂]⟩

theorem amendArgs_inv (A B : String) :
    ∀ a : Args, occArgs B a = 0 →
      amendRenameArgs B A (amendRenameArgs A B a) = a ∧
        occArgs B (amendRenameArgs A B a) = occArgs A a
  | .nil, _ => ⟨rfl, rfl⟩
  | .cons kw v r, h => by
      cases kw with
      | none =>
          simp only [occArgs] at h
          obtain ⟨ih₁, ih₂⟩ := amendExpr_inv A B v (by omega)
          obtain ⟨jh₁, jh₂⟩ := amendArgs_inv A B r (by omega)
          exact ⟨by simp [amendRenameArgs, ih₁, jh₁],
            by simp [occArgs, amendRenameArgs, ih₂, jh₂]⟩
      | some k =>
          simp only [occArgs, occ] at h
          by_cases hk : k = B
          · rw [if_pos hk] at h
            exact absurd h (by omega)
          · rw [if_neg hk] at h
            obtain ⟨ih₁, ih₂⟩ := amendExpr_inv A B v (by omega)
            obtain ⟨jh₁, jh₂⟩ := amendArgs_inv A B r (by omega)
            obtain ⟨hk₁, hk₂⟩ := subst_occ_inverse A B k hk
            exact ⟨by simp [amendRenameArgs, ih₁, jh₁, hk₁],
              by simp [occArgs, amendRenameArgs, ih₂, jh₂, hk₂]⟩

end

theorem amendOptExpr_inv (A B : String) (v : Option Expr)
    (h : occOptExpr B v = 0) :
    (v.map (amendRenameExpr A B)).map (amendRenameExpr B A) = v ∧
      occOptExpr B (v.map (amendRenameExpr A B)) = occOptExpr A v := by
  cases v with
  | none => exact ⟨rfl, rfl⟩
  | some e =>
      obtain ⟨h₁, h₂⟩ := amendExpr_inv A B e h
      exact ⟨by simp [h₁], by simp [occOptExpr, h₂]⟩

theorem amendFromAlias_inv (A B : String) (a : FromAlias)
    (h : occAsname B a.asname = 0) :
    amendRenameFromAlias B A (amendRenameFromAlias A B a) = a ∧
      occAsname B (amendRenameFromAlias A B a).asname =
        occAsname A a.asname := by
  obtain ⟨nv, asn⟩ := a
  cases asn with
  | none => exact ⟨rfl, rfl⟩
  | some x =>
      have hx : x ≠ B := by
        intro hv
        rw [hv] at h
        simp [occAsname, occ] at h
      obtain ⟨h₁, h₂⟩ := subst_occ_inverse A B x hx
      exact ⟨by simp [amendRenameFromAlias, h₁],
        by simp [amendRenameFromAlias, occAsname, h₂]⟩

theorem amendFromAliases_inv (A B : String) :
    ∀ xs : List FromAlias, (xs.map (fun a => occAsname B a.asname)).sum = 0 →
      (xs.map (amendRenameFromAlias A B)).map (amendRenameFromAlias B A) =
          xs ∧
        ((xs.map (amendRenameFromAlias A B)).map
            (fun a => occAsname B a.asname)).sum =
          (xs.map (fun a => occAsname A a.asname)).sum
  | [], _ => ⟨rfl, rfl⟩
  | a :: r, h => by
      simp only [List.map_cons, List.sum_cons] at h
      obtain ⟨h₁, h₂⟩ := amendFromAlias_inv A B a (by omega)
      obtain ⟨j₁, j₂⟩ := amendFromAliases_inv A B r (by omega)
      rw [List.map_map] at j₂
      exact ⟨by simp [h₁, j₁], by simp [h₂, j₂]⟩

theorem amendPlainAlias_inv (A B : String) (a : PlainAlias)
    (h : occAsname B a.asname = 0) :
    amendRenamePlainAlias B A (amendRenamePlainAlias A B a) = a ∧
      occAsname B (amendRenamePlainAlias A B a).asname =
        occAsname A a.asname := by
  obtain ⟨parts, asn⟩ := a
  cases asn with
  | none => exact ⟨rfl, rfl⟩
  | some x =>
      have hx : x ≠ B := by
        intro hv
        rw [hv] at h
        simp [occAsname, occ] at h
      obtain ⟨h₁, h₂⟩ := subst_occ_inverse A B x hx
      exact ⟨by simp [amendRenamePlainAlias, h₁],
        by simp [amendRenamePlainAlias, occAsname, h₂]⟩

theorem amendPlainAliases_inv (A B : String) :
    ∀ xs : List PlainAlias,
      (xs.map (fun a => occAsname B a.asname)).sum = 0 →
      (xs.map (amendRenamePlainAlias A B)).map (amendRenamePlainAlias B A) =
          xs ∧
        ((xs.map (amendRenamePlainAlias A B)).map
            (fun a => occAsname B a.asname)).sum =
          (xs.map (fun a => occAsname A a.asname)).sum
  | [], _ => ⟨rfl, rfl⟩
  | a :: r, h => by
      simp only [List.map_cons, List.sum_cons] at h
      obtain ⟨h₁, h₂⟩ := amendPlainAlias_inv A B a (by omega)
      obtain ⟨j₁, j₂⟩ := amendPlainAliases_inv A B r (by omega)
      rw [List.map_map] at j₂
      exact ⟨by simp [h₁, j₁], by simp [h₂, j₂]⟩

theorem amendSmall_inv (A B : String) (s : SmallStmt)
    (h : occSmall B s = 0) :
    amendRenameSmall B A (amendRenameSmall A B s) = s ∧
      occSmall B (amendRenameSmall A B s) = occSmall A s := by
  cases s with
  | sAssign ts v =>
      simp only [occSmall] at h
      obtain ⟨h₁, h₂⟩ := amendExprs_inv A B ts (by omega)
      obtain ⟨j₁, j₂⟩ := amendExpr_inv A B v (by omega)
      exact ⟨by simp [amendRenameSmall, h₁, j₁],
        by simp [occSmall, amendRenameSmall, h₂, j₂]⟩
  | sAnnAssign t ann v =>
      simp only [occSmall] at h
      obtain ⟨h₁, h₂⟩ := amendExpr_inv A B t (by omega)
      obtain ⟨j₁, j₂⟩ := amendExpr_inv A B ann (by omega)
      obtain ⟨k₁, k₂⟩ := amendOptExpr_inv A B v (by omega)
      exact ⟨by simp [amendRenameSmall, h₁, j₁, k₁],
        by simp [occSmall, amendRenameSmall, h₂, j₂, k₂]⟩
  | sImport names =>
      simp only [occSmall] at h
      obtain ⟨h₁, h₂⟩ := amendPlainAliases_inv A B names h
      exact ⟨by simp [amendRenameSmall, h₁],
        by simp [occSmall, amendRenameSmall]; simpa using h₂⟩
  | sImportFrom d mod names =>
      cases names with
      | star => exact ⟨rfl, rfl⟩
      | named xs =>
          simp only [occSmall] at h
          obtain ⟨h₁, h₂⟩ := amendFromAliases_inv A B xs h
          exact ⟨by simp [amendRenameSmall, h₁],
            by simp [occSmall, amendRenameSmall]; simpa using h₂⟩
  | sExpr e =>
      simp only [occSmall] at h
      obtain ⟨h₁, h₂⟩ := amendExpr_inv A B e h
      exact ⟨by simp [amendRenameSmall, h₁],
        by simp [occSmall, amendRenameSmall, h₂]⟩
  | sReturn e =>
      simp only [occSmall] at h
      obtain ⟨h₁, h₂⟩ := amendOptExpr_inv A B e h
      exact ⟨by simp [amendRenameSmall, h₁],
        by simp [occSmall, amendRenameSmall, h₂]⟩
  | sPass => exact ⟨rfl, rfl⟩

theorem amendSmalls_inv (A B : String) :
    ∀ b : List SmallStmt, (b.map (occSmall B)).sum = 0 →
      (b.map (amendRenameSmall A B)).map (amendRenameSmall B A) = b ∧
        ((b.map (amendRenameSmall A B)).map (occSmall B)).sum =
          (b.map (occSmall A)).sum
  | [], _ => ⟨rfl, rfl⟩
  | s :: r, h => by
      simp only [List.map_cons, List.sum_cons] at h
      obtain ⟨h₁, h₂⟩ := amendSmall_inv A B s (by omega)
      obtain ⟨j₁, j₂⟩ := amendSmalls_inv A B r (by omega)
      rw [List.map_map] at j₂
      exact ⟨by simp [h₁, j₁], by simp [h₂, j₂]⟩

theorem amendParams_inv (A B : String) :
    ∀ ps : List String, (ps.map (occ B)).sum = 0 →
      (ps.map (subst A B)).map (subst B A) = ps ∧
        ((ps.map (subst A B)).map (occ B)).sum = (ps.map (occ A)).sum
  | [], _ => ⟨rfl, rfl⟩
  | x :: r, h => by
      simp only [List.map_cons, List.sum_cons] at h
      have hx : x ≠ B := by
        intro hv
        rw [hv] at h
        simp [occ] at h
      obtain ⟨h₁, h₂⟩ := subst_occ_inverse A B x hx
      obtain ⟨j₁, j₂⟩ := amendParams_inv A B r (by omega)
      rw [List.map_map] at j₂
      exact ⟨by simp [h₁, j₁], by simp [h₂, j₂]⟩

mutual

theorem amendStmt_inv (A B : String) :
    ∀ s : Stmt, occStmt B s = 0 →
      amendRenameStmt B A (amendRenameStmt A B s) = s ∧
        occStmt B (amendRenameStmt A B s) = occStmt A s
  | .sline body, h => by
      simp only [occStmt] at h
      obtain ⟨h₁, h₂⟩ := amendSmalls_inv A B body h
      exact ⟨by simp [amendRenameStmt, h₁],
        by simp [occStmt, amendRenameStmt]; simpa using h₂⟩
  | .sfun nm ps body, h => by
      simp only [occStmt, occ] at h
      by_cases hn : nm = B
      · rw [if_pos hn] at h
        exact absurd h (by omega)
      · rw [if_neg hn] at h
        obtain ⟨p₁, p₂⟩ := amendParams_inv A B ps (by omega)
        obtain ⟨b₁, b₂⟩ := amendStmts_inv A B body (by omega)
        obtain ⟨n₁, n₂⟩ := subst_occ_inverse A B nm hn
        exact ⟨by simp [amendRenameStmt, p₁, b₁, n₁],
          by simp [occStmt, amendRenameStmt, b₂, n₂]; simpa using p₂⟩
  | .sclass nm body, h => by
      simp only [occStmt, occ] at h
      by_cases hn : nm = B
      · rw [if_pos hn] at h
        exact absurd h (by omega)
      · rw [if_neg hn] at h
        obtain ⟨b₁, b₂⟩ := amendStmts_inv A B body (by omega)
        obtain ⟨n₁, n₂⟩ := subst_occ_inverse A B nm hn
        exact ⟨by simp [amendRenameStmt, b₁, n₁],
          by simp [occStmt, amendRenameStmt, b₂, n₂]⟩

theorem amendStmts_inv (A B : String) :
    ∀ b : Stmts, occStmts B b = 0 →
      amendRenameStmts B A (amendRenameStmts A B b) = b ∧
        occStmts B (amendRenameStmts A B b) = occStmts A b
  | .nil, _ => ⟨rfl, rfl⟩
  | .cons s r, h => by
      simp only [occStmts] at h
      obtain ⟨h₁, h₂⟩ := amendStmt_inv A B s (by omega)
      obtain ⟨j₁, j₂⟩ := amendStmts_inv A B r (by omega)
      exact ⟨by simp [amendRenameStmts, h₁, j₁],
        by simp [occStmts, amendRenameStmts, h₂, j₂]⟩

end

end Pycastic

namespace Pycastic

/-! ### Evaluating `rename_symbol` on a single-file project -/

theorem throw_eq_error {ε α : Type} (e : ε) :
    (throw e : Except ε α) = Except.error e := rfl

theorem pure_eq_ok {ε α : Type} (x : α) :
    (pure x : Except ε α) = Except.ok x := rfl

/-- On a one-file project, a successful `rename_symbol` writes back exactly
the rename transformer's image of the file's tree. -/
theorem rename_symbol_single_file (p text : String) (m : Module)
    (old new : String) (hON : old ≠ new)
    (hocc : 0 < occStmts old m.body)
    (fs' : FS) (c : List String) (i : List InfoMsg)
    (h : rename_symbol [(p, ⟨text, some m⟩)] (.byName p old) new false =
      .ok (fs', c, i)) :
    fs' = [(p, ⟨text,
      some (⟨amendRenameStmts old new m.body⟩ : Module)⟩)] := by
  have hlk : lookupFS [(p, (⟨text, some m⟩ : PyFile))] p =
      some ⟨text, some m⟩ := by
    simp [lookupFS]
  have hri : rename_in_source m old new =
      (⟨amendRenameStmts old new m.body⟩, occStmts old m.body) := by
    unfold rename_in_source
    rw [renameStmts_spec old new hON]
  by_cases hpy : strEndsWith p ".py" = true
  · have htab : buildTable [(p, (⟨text, some m⟩ : PyFile))] =
        [(p, ⟨p, collectStmtsDefs p (_path_to_module p) [] m.body,
          importInfosStmts m.body⟩)] := by
      simp [buildTable, getPythonFiles, hpy, collect_file_symbols]
    cases hfd : find_definition (buildTable
        [(p, (⟨text, some m⟩ : PyFile))]) p old with
    | none =>
        exfalso
        simp only [rename_symbol, _resolve_target, bind, Except.bind, pure,
          Except.pure, throw_eq_error, hlk, hfd] at h
        simp [hfd] at h
    | some dA =>
        simp only [rename_symbol, _resolve_target, bind, Except.bind, pure,
          Except.pure, throw_eq_error, hlk, List.headD_cons] at h
        simp only [hfd, hri] at h
        simp [hocc, getPythonFiles, hpy, applyChanges, writeTree,
          List.filter] at h
        split at h
        · simp at h
        · simp only [Except.ok.injEq, Prod.mk.injEq] at h
          rw [← h.1]
          simp [hri, hocc]
  · exfalso
    have htab : buildTable [(p, (⟨text, some m⟩ : PyFile))] = [] := by
      simp [buildTable, getPythonFiles, hpy]
    have hfd : find_definition (buildTable
        [(p, (⟨text, some m⟩ : PyFile))]) p old = none := by
      rw [htab]; rfl
    simp only [rename_symbol, _resolve_target, bind, Except.bind, pure,
      Except.pure, throw_eq_error, hlk, hfd] at h
    simp [hfd] at h

end Pycastic

namespace Pycastic

/-- C9 (amended): the rename round trip is an inverse only when the new
name is fresh.  For a single-file project whose tree mentions `A` at a
renameable position and mentions `B` at none, if `rename_symbol A → B`
succeeds and `rename_symbol B → A` succeeds on its result, the project is
restored exactly (same path, same stored text, same tree — hence the same
regenerated byte content).  Without the freshness premise the law fails:
a pre-existing `B` is rewritten to `A` by the second pass. -/
theorem rename_symbol_inverse (p text : String) (m : Module) (A B : String)
    (fs₁ fs₂ : FS) (c₁ c₂ : List String) (i₁ i₂ : List InfoMsg)
    (hAB : A ≠ B)
    (hA : 0 < occStmts A m.body)
    (hB : occStmts B m.body = 0)
    (h₁ : rename_symbol [(p, ⟨text, some m⟩)] (.byName p A) B false =
      .ok (fs₁, c₁, i₁))
    (h₂ : rename_symbol fs₁ (.byName p B) A false = .ok (fs₂, c₂, i₂)) :
    fs₂ = [(p, ⟨text, some m⟩)] := by
  have hBA : B ≠ A := fun e => hAB e.symm
  obtain ⟨hinv, hocc⟩ := amendStmts_inv A B m.body hB
  have hfs₁ := rename_symbol_single_file p text m A B hAB hA fs₁ c₁ i₁ h₁
  rw [hfs₁] at h₂
  have hocc' :
      0 < occStmts B (⟨amendRenameStmts A B m.body⟩ : Module).body := by
    show 0 < occStmts B (amendRenameStmts A B m.body)
    rw [hocc]
    exact hA
  have hfs₂ := rename_symbol_single_file p text
    ⟨amendRenameStmts A B m.body⟩ B A hBA hocc' fs₂ c₂ i₂ h₂
  rw [hfs₂, hinv]

/-- Witness for `rename_symbol_inverse` on the one-file project `A = 1`,
renamed to `B` and back. -/
theorem rename_symbol_inverse_witness :
    ("A" ≠ "B" ∧ 0 < occStmts "A" invWitModule.body ∧
      occStmts "B" invWitModule.body = 0 ∧
      rename_symbol invWitFS (.byName "f.py" "A") "B" false =
        .ok (invWitMidFS, ["f.py"], []) ∧
      rename_symbol invWitMidFS (.byName "f.py" "B") "A" false =
        .ok (invWitFS, ["f.py"], [])) ∧
    invWitFS = [("f.py", ⟨"A = 1\n", some invWitModule⟩)] :=
  ⟨⟨by decide, by decide, by decide, by decide, by decide⟩,
    rename_symbol_inverse "f.py" "A = 1\n" invWitModule "A" "B"
      invWitMidFS invWitFS ["f.py"] ["f.py"] [] []
      (by decide) (by decide) (by decide) (by decide) (by decide)⟩

end Pycastic
